import Mathlib

/-!
# filequeue: a FIFO queue stored in a directory

A shallow embedding of `filequeue.go` (package `filequeue`).

* The base directory is a finite map from file names to file contents
  (`Dir`).  A path `filepath.Join(fq.baseDir, name)` is represented by `name`,
  the name of the entry inside the base directory.
* Every filesystem primitive the code calls (`os.ReadDir`, `os.Rename`,
  `os.ReadFile`, `os.Remove`, `os.WriteFile`) is a state transformer on a
  `World`: the directory together with the trace of the primitives executed
  so far.  Each primitive takes the outcome the environment imposes on it
  (`none`: the call runs normally, `some e`: the call fails with error `e`)
  and also fails by itself where the real call would (missing source file).
* `rand.Float64()` rendered by `%v` and `time.Now().UnixNano()` rendered by
  `%v` are inputs of the operations that draw them.
* File names are strings of Unicode characters.  Go compares and tests suffixes on the
  UTF-8 bytes; on valid UTF-8 the byte order is the order of the characters, and a suffix
  test against the ASCII text `.item` gives the same answer on bytes and on characters.
* The concurrent part models consumers as small-step programs whose atomic
  steps are the filesystem primitives, interleaved by an arbitrary schedule.
-/

namespace FileQueue

/-! ## Data model -/

/-- A Go `[]byte` value that is not nil. -/
abbrev Bytes := List UInt8

/-- A non-nil Go `error` value. -/
abbrev Error := String

/-- The base directory: a finite map from entry names to file contents. -/
abbrev Dir := AList (fun _ : String => Bytes)

/-- One executed filesystem primitive, with whether it succeeded. -/
inductive Op where
  | readDir (ok : Bool)
  | rename (src dst : String) (ok : Bool)
  | readFile (path : String) (ok : Bool)
  | remove (path : String) (ok : Bool)
  | writeFile (path : String) (ok : Bool)
deriving DecidableEq, Repr

/-- The directory and the filesystem primitives executed on it so far. -/
structure World where
  dir : Dir
  trace : List Op

/-- Append one executed primitive to the trace. -/
def World.log (w : World) (op : Op) : World :=
  { w with trace := w.trace ++ [op] }

/-! ## Library functions used by the package -/

/-- Decide `a ≤ b` on strings by comparing the character lists. -/
def decideLE (a b : String) : Decidable (a ≤ b) :=
  decidable_of_iff (¬ b.data < a.data)
    ⟨fun h => not_lt.mp (fun hlt => h (String.lt_iff_toList_lt.mp hlt)),
     fun h hlt => not_lt.mpr h (String.lt_iff_toList_lt.mpr hlt)⟩

/-- Go `sort.Strings`: sort in increasing order. -/
def sort.Strings (l : List String) : List String :=
  @List.insertionSort String (· ≤ ·) decideLE l

/-- Go `strings.HasSuffix`. -/
def strings.HasSuffix (s suffix : String) : Bool :=
  suffix.data.isSuffixOf s.data

/-- The characters `%v` can print for a `float64`: digits, `.`, `e`, `+`, `-`. -/
def isFloatChar (c : Char) : Bool :=
  c.isDigit || c == '.' || c == 'e' || c == '+' || c == '-'

/-- A string made of the characters a printed `float64` is made of. -/
def isFloatText (s : String) : Bool :=
  s.data.all isFloatChar

/-- The text `fmt.Sprintf("%v", rand.Float64())` can produce. -/
abbrev FloatText := { s : String // isFloatText s = true }

/-- Go `fmt.Sprintf("%v", n)` for an `int64`: decimal, `-` for negatives. -/
def formatInt : Int → String
  | Int.ofNat n => Nat.repr n
  | Int.negSucc n => "-" ++ Nat.repr (n + 1)

/-- Go `os.ReadDir`: the entry names, sorted by file name. -/
def os.ReadDir (fault : Option Error) (w : World) : Except Error (List String) × World :=
  match fault with
  | some e => (.error e, w.log (.readDir false))
  | none => (.ok (sort.Strings w.dir.keys), w.log (.readDir true))

/-- Go `os.Rename`: move `src` to `dst`, replacing `dst` if it exists. -/
def os.Rename (fault : Option Error) (src dst : String) (w : World) : Option Error × World :=
  match fault with
  | some e => (some e, w.log (.rename src dst false))
  | none =>
    match w.dir.lookup src with
    | none => (some "no such file or directory", w.log (.rename src dst false))
    | some b =>
      (none, { dir := (w.dir.erase src).insert dst b,
               trace := w.trace ++ [.rename src dst true] })

/-- Go `os.ReadFile`: the whole content (a non-nil slice, also when empty). -/
def os.ReadFile (fault : Option Error) (path : String) (w : World) : Except Error Bytes × World :=
  match fault with
  | some e => (.error e, w.log (.readFile path false))
  | none =>
    match w.dir.lookup path with
    | none => (.error "no such file or directory", w.log (.readFile path false))
    | some b => (.ok b, w.log (.readFile path true))

/-- Go `os.Remove`. -/
def os.Remove (fault : Option Error) (path : String) (w : World) : Option Error × World :=
  match fault with
  | some e => (some e, w.log (.remove path false))
  | none =>
    match w.dir.lookup path with
    | none => (some "no such file or directory", w.log (.remove path false))
    | some _ => (none, { dir := w.dir.erase path, trace := w.trace ++ [.remove path true] })

/-- Go `os.WriteFile`: create or truncate `path` and write `b`. -/
def os.WriteFile (fault : Option Error) (path : String) (b : Bytes) (w : World) :
    Option Error × World :=
  match fault with
  | some e => (some e, w.log (.writeFile path false))
  | none => (none, { dir := w.dir.insert path b, trace := w.trace ++ [.writeFile path true] })

/-! ## The package -/

/-- What the environment does during one call of `Pop`: the outcome imposed on
each primitive (by the path it is called on) and the random text drawn when an
item is tried. -/
structure Outcomes where
  readDir : Option Error
  rename : String → Option Error
  readFile : String → Option Error
  remove : String → Option Error
  float : String → FloatText

/-- The method `listItemsSorted`. -/
def listItemsSorted (fault : Option Error) (w : World) : Except Error (List String) × World :=
  match os.ReadDir fault w with
  | (.error e, w1) => (.error e, w1)
  | (.ok dirEnts, w1) =>
    (.ok (sort.Strings (dirEnts.filter (fun basename => strings.HasSuffix basename ".item"))), w1)

/-- The method `Len`. -/
def Len (fault : Option Error) (w : World) : (Int × Option Error) × World :=
  match listItemsSorted fault w with
  | (.error e, w1) => ((-1, some e), w1)
  | (.ok items, w1) => ((items.length, none), w1)

/-- The name `Pop` renames `item` to: `fmt.Sprintf("%s.pop-%v", fullPath, rand.Float64())`. -/
def tmpPath (item : String) (float : FloatText) : String :=
  item ++ ".pop-" ++ float.val

/-- The `for _, loopItem := range items` loop of `Pop`. -/
def popLoop (o : Outcomes) : List String → World → (Option Bytes × Option Error) × World
  | [], w => ((none, none), w)
  | item :: rest, w =>
    match os.Rename (o.rename item) item (tmpPath item (o.float item)) w with
    | (some _, w1) => popLoop o rest w1
    | (none, w1) =>
      match os.ReadFile (o.readFile (tmpPath item (o.float item)))
          (tmpPath item (o.float item)) w1 with
      | (.error e, w2) => ((none, some e), w2)
      | (.ok itemBytes, w2) =>
        match os.Remove (o.remove (tmpPath item (o.float item)))
            (tmpPath item (o.float item)) w2 with
        | (some e, w3) => ((none, some e), w3)
        | (none, w3) => ((some itemBytes, none), w3)

/-- The method `Pop`. -/
def Pop (o : Outcomes) (w : World) : (Option Bytes × Option Error) × World :=
  match listItemsSorted o.readDir w with
  | (.error e, w1) => ((none, some e), w1)
  | (.ok items, w1) =>
    if items.length = 0 then ((none, none), w1)
    else popLoop o items w1

/-- The method `Push`, at clock reading `now` (`time.Now().UnixNano()`). -/
def Push (now : Int) (fault : Option Error) (b : Bytes) (w : World) : Option Error × World :=
  os.WriteFile fault (formatInt now ++ ".item") b w

/-- The sorted list of item names `listItemsSorted` computes from a directory. -/
def snapshot (d : Dir) : List String :=
  sort.Strings ((sort.Strings d.keys).filter (fun basename => strings.HasSuffix basename ".item"))

/-- The trace entries of the claim attempts that failed on the names `l`. -/
def failedRenames (o : Outcomes) (l : List String) : List Op :=
  l.map (fun m => Op.rename m (tmpPath m (o.float m)) false)

/-- The trace entry is a directory listing. -/
def Op.isReadDir : Op → Bool
  | .readDir _ => true
  | _ => false

/-- The trace entry is a rename (a claim attempt). -/
def Op.isRename : Op → Bool
  | .rename _ _ _ => true
  | _ => false

/-- The trace entry is a file read or a file delete. -/
def Op.isReadOrRemove : Op → Bool
  | .readFile _ _ => true
  | .remove _ _ => true
  | _ => false

/-- The trace entry is a rename that succeeded (an item was claimed). -/
def Op.isClaim : Op → Bool
  | .rename _ _ true => true
  | _ => false

/-- A directory with the items `1.item`, `2.item` and a file that is not an item. -/
def exampleDir : Dir :=
  (((∅ : Dir).insert "note.txt" [9]).insert "2.item" [2]).insert "1.item" [1]

/-- No primitive fails; every random draw prints as `0.5`. -/
def quiet : Outcomes :=
  ⟨none, fun _ => none, fun _ => none, fun _ => none, fun _ => ⟨"0.5", by decide⟩⟩

/-- The rename of `1.item` fails (another consumer holds it); nothing else fails. -/
def firstTaken : Outcomes :=
  { quiet with rename := fun m => if m = "1.item" then some "no such file or directory" else none }

/-- Every rename fails; nothing else fails. -/
def allTaken : Outcomes :=
  { quiet with rename := fun _ => some "no such file or directory" }

/-- Every read fails; nothing else fails. -/
def readFails : Outcomes :=
  { quiet with readFile := fun _ => some "input/output error" }

/-! ## Sequences of calls -/

/-- The file name `Push` builds at clock reading `now`. -/
def itemName (now : Int) : String :=
  formatInt now ++ ".item"

/-- Successive `Push` calls, none failing; each entry is the clock reading of the call and
the payload pushed. -/
def pushAll : List (Int × Bytes) → World → World
  | [], w => w
  | (now, b) :: rest, w => pushAll rest (Push now none b w).2

/-- `k` successive `Pop` calls: their results in order, and the world they leave. -/
def popAll (o : Outcomes) : Nat → World → List (Option Bytes × Option Error) × World
  | 0, w => ([], w)
  | k + 1, w => ((Pop o w).1 :: (popAll o k (Pop o w).2).1, (popAll o k (Pop o w).2).2)

/-! ## Concurrent consumers

Each consumer runs the loop of the test: `for { el, err := q.Pop(); if err != nil
{ continue }; if el == nil { return }; ... }`.  A consumer takes one atomic filesystem
step at a time; the steps of different consumers interleave in any order. -/

/-- Where a consumer stands in its loop. -/
inductive Pc where
  /-- about to call `Pop`, that is to list the directory -/
  | idle
  /-- inside the `for` loop of `Pop`, the names `rest` still to be tried -/
  | trying (rest : List String)
  /-- the rename of `item` to `tmp` succeeded; the read comes next -/
  | claimed (item tmp : String)
  /-- the claim file `tmp` of `item` has been read; the delete comes next -/
  | read (item tmp : String) (itemBytes : Bytes)
  /-- `Pop` returned `(nil, nil)` and the consumer returned -/
  | done
deriving DecidableEq

/-- The item and claim name a consumer holds between its rename and its delete. -/
def Pc.holding : Pc → Option (String × String)
  | .claimed item tmp => some (item, tmp)
  | .read item tmp _ => some (item, tmp)
  | _ => none

/-- The shared directory, the position of every consumer, and the record of every `Pop`
that returned a payload: the consumer, the item it had claimed, the payload returned. -/
structure Sys where
  world : World
  pc : Nat → Pc
  delivered : List (Nat × String × Bytes)

/-- The start: directory `d`, the consumers `0 .. K-1` about to call `Pop`. -/
def Sys.init (d : Dir) (K : Nat) : Sys :=
  { world := ⟨d, []⟩, pc := fun i => if i < K then Pc.idle else Pc.done, delivered := [] }

/-- One scheduling decision: which consumer moves, the text of the random number it draws
if the step is a rename, and the outcome of the listing if the step is a listing. -/
structure Choice where
  consumer : Nat
  float : FloatText
  listErr : Option Error

/-- The next atomic step of consumer `ch.consumer`; `none` if it has returned. -/
def Sys.step (ch : Choice) (σ : Sys) : Option Sys :=
  match σ.pc ch.consumer with
  | .done => none
  | .idle =>
    match listItemsSorted ch.listErr σ.world with
    | (.error _, w) => some { σ with world := w }
    | (.ok items, w) =>
      if items.length = 0 then
        some { σ with world := w, pc := Function.update σ.pc ch.consumer .done }
      else
        some { σ with world := w, pc := Function.update σ.pc ch.consumer (.trying items) }
  | .trying [] => some { σ with pc := Function.update σ.pc ch.consumer .done }
  | .trying (item :: rest) =>
    match os.Rename none item (tmpPath item ch.float) σ.world with
    | (some _, w) =>
      some { σ with world := w, pc := Function.update σ.pc ch.consumer (.trying rest) }
    | (none, w) =>
      some { σ with world := w,
                    pc := Function.update σ.pc ch.consumer
                      (.claimed item (tmpPath item ch.float)) }
  | .claimed item tmp =>
    match os.ReadFile none tmp σ.world with
    | (.error _, w) =>
      some { σ with world := w, pc := Function.update σ.pc ch.consumer .idle }
    | (.ok itemBytes, w) =>
      some { σ with world := w, pc := Function.update σ.pc ch.consumer (.read item tmp itemBytes) }
  | .read item tmp itemBytes =>
    match os.Remove none tmp σ.world with
    | (some _, w) =>
      some { σ with world := w, pc := Function.update σ.pc ch.consumer .idle }
    | (none, w) =>
      some { world := w, pc := Function.update σ.pc ch.consumer .idle,
             delivered := σ.delivered ++ [(ch.consumer, item, itemBytes)] }

/-- Run a schedule; `none` if it asks a consumer that has returned to move. -/
def Sys.run : List Choice → Sys → Option Sys
  | [], σ => some σ
  | ch :: rest, σ =>
    match σ.step ch with
    | none => none
    | some σ1 => Sys.run rest σ1

/-- Consumer `i` moves, drawing `0.5`, the listing succeeding. -/
def move (i : Nat) : Choice :=
  ⟨i, ⟨"0.5", by decide⟩, none⟩

/-- Two consumers race for the two items of `exampleDir`: both list, consumer 1 claims
`1.item` first, consumer 0 fails on it and takes `2.item`; both finish their pops, list
again and return. -/
def exampleSchedule : List Choice :=
  [move 0, move 1, move 1, move 0, move 0, move 1, move 0, move 1, move 0, move 0, move 1]

/-- The state `exampleSchedule` reaches from `exampleDir` with two consumers. -/
def exampleFinal : Sys :=
  (Sys.run exampleSchedule (Sys.init exampleDir 2)).getD (Sys.init ∅ 0)

/-- A bound on the steps a consumer at this position takes before its current `Pop`
returns, when at most `M` items are listed. -/
def Pc.weight (M : Nat) : Pc → Nat
  | .idle => M + 4
  | .trying rest => rest.length + 3
  | .claimed _ _ => 2
  | .read _ _ _ => 1
  | .done => 0

/-- A bound on the steps the consumers `0 .. K-1` can still take, `M` the number of items
at the start: every item not yet delivered pays for one more `Pop`. -/
def Sys.measure (M K : Nat) (σ : Sys) : Nat :=
  (M - σ.delivered.length) * (M + 4) + Finset.sum (Finset.range K) (fun j => (σ.pc j).weight M)

/-- The items the record of deliveries names. -/
def Sys.deliveredNames (σ : Sys) : List String :=
  σ.delivered.map (fun x => x.2.1)

/-- What holds in every state reachable from `Sys.init d0 K`: every item of `d0` is either
still queued, or held by exactly one consumer (under a claim name that stores its content),
or delivered exactly once with its content; and nothing else is queued, held or delivered. -/
structure Inv (d0 : Dir) (K : Nat) (σ : Sys) : Prop where
  items_sub : ∀ m c, strings.HasSuffix m ".item" = true →
    σ.world.dir.lookup m = some c → d0.lookup m = some c
  beyond : ∀ i, K ≤ i → σ.pc i = Pc.done
  trying : ∀ i rest, σ.pc i = Pc.trying rest →
    (∀ m ∈ rest, strings.HasSuffix m ".item" = true) ∧ (∀ m ∈ snapshot σ.world.dir, m ∈ rest)
  finished : ∀ i, i < K → σ.pc i = Pc.done → snapshot σ.world.dir = []
  holding : ∀ i item tmp, (σ.pc i).holding = some (item, tmp) →
    (∃ s : FloatText, tmp = tmpPath item s) ∧ item ∈ snapshot d0 ∧
    σ.world.dir.lookup tmp = d0.lookup item ∧ item ∉ snapshot σ.world.dir ∧
    item ∉ σ.deliveredNames
  readOk : ∀ i item tmp b, σ.pc i = Pc.read item tmp b → d0.lookup item = some b
  unique : ∀ i j item tmp tmp', i ≠ j → (σ.pc i).holding = some (item, tmp) →
    (σ.pc j).holding = some (item, tmp') → False
  delivered_nodup : σ.deliveredNames.Nodup
  delivered_ok : ∀ x ∈ σ.delivered,
    d0.lookup x.2.1 = some x.2.2 ∧ x.2.1 ∈ snapshot d0 ∧ x.2.1 ∉ snapshot σ.world.dir
  no_loss : ∀ n ∈ snapshot d0, n ∈ snapshot σ.world.dir ∨
    (∃ i tmp, (σ.pc i).holding = some (n, tmp)) ∨ n ∈ σ.deliveredNames
  delivered_by : ∀ x ∈ σ.delivered, x.1 < K

/-! ## Basic facts -/

theorem sort_perm (l : List String) : (sort.Strings l).Perm l :=
  @List.perm_insertionSort String (· ≤ ·) decideLE l

theorem sort_sorted (l : List String) : (sort.Strings l).Sorted (· ≤ ·) :=
  @List.sorted_insertionSort String (· ≤ ·) decideLE _ _ l

theorem mem_sort {l : List String} {m : String} : m ∈ sort.Strings l ↔ m ∈ l :=
  (sort_perm l).mem_iff

theorem mem_snapshot {d : Dir} {m : String} :
    m ∈ snapshot d ↔ m ∈ d ∧ strings.HasSuffix m ".item" = true := by
  unfold snapshot
  rw [mem_sort, List.mem_filter, mem_sort, AList.mem_keys]

theorem snapshot_nodup (d : Dir) : (snapshot d).Nodup := by
  unfold snapshot
  refine (sort_perm _).nodup_iff.mpr (List.Nodup.filter _ ?_)
  exact (sort_perm _).nodup_iff.mpr d.keys_nodup

theorem snapshot_sorted (d : Dir) : (snapshot d).Sorted (· < ·) := by
  have h1 : (snapshot d).Sorted (· ≤ ·) := sort_sorted _
  exact h1.lt_of_le (snapshot_nodup d)

theorem listItemsSorted_ok (w : World) :
    listItemsSorted none w = (.ok (snapshot w.dir), w.log (.readDir true)) := rfl

theorem listItemsSorted_error (e : Error) (w : World) :
    listItemsSorted (some e) w = (.error e, w.log (.readDir false)) := rfl

theorem tmpPath_not_item (n : String) (s : FloatText) :
    strings.HasSuffix (tmpPath n s) ".item" = false := by
  rw [Bool.eq_false_iff]
  intro h
  unfold strings.HasSuffix at h
  rw [List.isSuffixOf_iff_suffix] at h
  obtain ⟨t, ht⟩ := h
  have hr := congrArg List.reverse ht
  have hs : ∀ c ∈ s.val.data.reverse, isFloatChar c = true := by
    intro c hc
    have := s.property
    unfold isFloatText at this
    rw [List.all_eq_true] at this
    exact this c (List.mem_reverse.mp hc)
  simp only [tmpPath, String.data_append, List.reverse_append] at hr
  cases hsr : s.val.data.reverse with
  | nil =>
    rw [hsr] at hr
    revert hr
    simp
  | cons c cs =>
    rw [hsr] at hr hs
    have hc := hs c (List.mem_cons_self _ _)
    have : c = 'm' := by
      have h0 := congrArg List.head? hr
      simpa using h0.symm
    rw [this] at hc
    exact absurd hc (by decide)

theorem tmpPath_ne (n : String) (s : FloatText) : tmpPath n s ≠ n := by
  intro h
  have h1 := congrArg String.length h
  simp [tmpPath, String.length_append] at h1
  have : ".pop-".length = 5 := by decide
  omega

/-- A claim attempt the environment makes fail leaves the directory as it is. -/
theorem popLoop_skip (o : Outcomes) (pre rest : List String) (w : World)
    (hpre : ∀ m ∈ pre, o.rename m ≠ none) :
    popLoop o (pre ++ rest) w
      = popLoop o rest ⟨w.dir, w.trace ++ failedRenames o pre⟩ := by
  induction pre generalizing w with
  | nil => simp [failedRenames]
  | cons m pre ih =>
    have hm : o.rename m ≠ none := hpre m (List.mem_cons_self _ _)
    obtain ⟨e, he⟩ := Option.ne_none_iff_exists'.mp hm
    have ih2 := ih (w.log (.rename m (tmpPath m (o.float m)) false))
      (fun x hx => hpre x (List.mem_cons_of_mem _ hx))
    simp only [World.log] at ih2
    simp only [List.cons_append, popLoop, os.Rename, he, World.log]
    exact ih2.trans (by simp [failedRenames])

/-- The loop at an entry whose claim, read and delete all succeed. -/
theorem popLoop_claim (o : Outcomes) (n : String) (post : List String) (w : World) (b : Bytes)
    (hb : w.dir.lookup n = some b)
    (hn : o.rename n = none)
    (hread : o.readFile (tmpPath n (o.float n)) = none)
    (hremove : o.remove (tmpPath n (o.float n)) = none) :
    popLoop o (n :: post) w
      = ((some b, none),
         ⟨((w.dir.erase n).insert (tmpPath n (o.float n)) b).erase (tmpPath n (o.float n)),
          w.trace ++ [.rename n (tmpPath n (o.float n)) true,
                      .readFile (tmpPath n (o.float n)) true,
                      .remove (tmpPath n (o.float n)) true]⟩) := by
  simp [popLoop, os.Rename, os.ReadFile, os.Remove, hb, hn, hread, hremove, World.log]

theorem Len_ok (w : World) :
    Len none w = (((((snapshot w.dir).length : Nat) : Int), none), w.log (.readDir true)) := rfl

theorem Len_error (e : Error) (w : World) :
    Len (some e) w = ((-1, some e), w.log (.readDir false)) := rfl

theorem listItemsSorted_eq_ok {fault : Option Error} {w : World} {items : List String}
    (h : (listItemsSorted fault w).1 = .ok items) : fault = none ∧ snapshot w.dir = items := by
  cases fault with
  | some e => simp [listItemsSorted_error] at h
  | none =>
    rw [listItemsSorted_ok] at h
    exact ⟨rfl, by injection h⟩

theorem Pop_of_listed (o : Outcomes) (w : World) (h : o.readDir = none) :
    Pop o w = if (snapshot w.dir).length = 0 then ((none, none), w.log (.readDir true))
      else popLoop o (snapshot w.dir) (w.log (.readDir true)) := by
  simp only [Pop, h, listItemsSorted_ok]

theorem Pop_of_listing_error (o : Outcomes) (w : World) (e : Error) (h : o.readDir = some e) :
    Pop o w = ((none, some e), w.log (.readDir false)) := by
  simp only [Pop, h, listItemsSorted_error]

/-- Directories with the same item names give the same snapshot. -/
theorem snapshot_congr {d d' : Dir}
    (h : ∀ m, strings.HasSuffix m ".item" = true → (m ∈ d' ↔ m ∈ d)) :
    snapshot d' = snapshot d := by
  have hp : (snapshot d').Perm (snapshot d) := by
    rw [List.perm_ext_iff_of_nodup (snapshot_nodup _) (snapshot_nodup _)]
    intro m
    rw [mem_snapshot, mem_snapshot]
    constructor
    · rintro ⟨h1, h2⟩
      exact ⟨(h m h2).mp h1, h2⟩
    · rintro ⟨h1, h2⟩
      exact ⟨(h m h2).mpr h1, h2⟩
  exact List.eq_of_perm_of_sorted (r := (· ≤ ·)) hp (sort_sorted _) (sort_sorted _)

/-- Removing one item name from the directory makes the snapshot one shorter. -/
theorem snapshot_length_remove {d d' : Dir} {n : String} (hn : n ∈ snapshot d)
    (h : ∀ m, m ∈ snapshot d' ↔ m ∈ snapshot d ∧ m ≠ n) :
    (snapshot d').length + 1 = (snapshot d).length := by
  have hp : (n :: snapshot d').Perm (snapshot d) := by
    rw [List.perm_ext_iff_of_nodup _ (snapshot_nodup _)]
    · intro m
      rw [List.mem_cons, h]
      constructor
      · rintro (rfl | ⟨h1, _⟩)
        · exact hn
        · exact h1
      · intro hm
        by_cases hmn : m = n
        · exact Or.inl hmn
        · exact Or.inr ⟨hm, hmn⟩
    · refine List.nodup_cons.mpr ⟨?_, snapshot_nodup _⟩
      intro hmem
      exact ((h n).mp hmem).2 rfl
  simpa using hp.length_eq

/-- The snapshot of the directory left by a claim (and by a claim followed by
the delete of the claim file) is the old snapshot without the claimed name. -/
theorem mem_snapshot_claimed {d : Dir} {n : String} (s : FloatText) (b : Bytes) (m : String) :
    (m ∈ snapshot ((d.erase n).insert (tmpPath n s) b) ↔ m ∈ snapshot d ∧ m ≠ n) ∧
    (m ∈ snapshot (((d.erase n).insert (tmpPath n s) b).erase (tmpPath n s))
      ↔ m ∈ snapshot d ∧ m ≠ n) := by
  have ht := tmpPath_not_item n s
  simp only [mem_snapshot, AList.mem_erase, AList.mem_insert]
  constructor
  · constructor
    · rintro ⟨h1 | ⟨h1, h2⟩, h3⟩
      · rw [h1, ht] at h3
        exact absurd h3 (by decide)
      · exact ⟨⟨h2, h3⟩, h1⟩
    · rintro ⟨⟨h1, h2⟩, h3⟩
      exact ⟨Or.inr ⟨h3, h1⟩, h2⟩
  · constructor
    · rintro ⟨⟨_, h1 | ⟨h1, h2⟩⟩, h3⟩
      · rw [h1, ht] at h3
        exact absurd h3 (by decide)
      · exact ⟨⟨h2, h3⟩, h1⟩
    · rintro ⟨⟨h1, h2⟩, h3⟩
      refine ⟨⟨?_, Or.inr ⟨h3, h1⟩⟩, h2⟩
      intro hm
      rw [hm, ht] at h2
      exact absurd h2 (by decide)

/-! ## Pop: the successful path -/

/-- `Pop` when the claims of `pre` fail and the claim, read and delete of `n` succeed. -/
theorem Pop_success (o : Outcomes) (d : Dir) (t : List Op) (pre post : List String)
    (n : String) (b : Bytes)
    (hrd : o.readDir = none)
    (hs : snapshot d = pre ++ n :: post)
    (hb : d.lookup n = some b)
    (hpre : ∀ m ∈ pre, o.rename m ≠ none)
    (hn : o.rename n = none)
    (hread : o.readFile (tmpPath n (o.float n)) = none)
    (hremove : o.remove (tmpPath n (o.float n)) = none) :
    Pop o ⟨d, t⟩
      = ((some b, none),
         ⟨((d.erase n).insert (tmpPath n (o.float n)) b).erase (tmpPath n (o.float n)),
          t ++ ([Op.readDir true] ++ failedRenames o pre ++
            [Op.rename n (tmpPath n (o.float n)) true,
             Op.readFile (tmpPath n (o.float n)) true,
             Op.remove (tmpPath n (o.float n)) true])⟩) := by
  have hlen : ¬ (snapshot d).length = 0 := by
    rw [hs]
    simp
  rw [Pop_of_listed o _ hrd]
  simp only [hlen, if_false, hs]
  rw [popLoop_skip o pre (n :: post) _ hpre]
  rw [popLoop_claim o n post _ b hb hn hread hremove]
  simp [World.log]

theorem hasSuffix_item (x : String) : strings.HasSuffix (x ++ ".item") ".item" = true := by
  unfold strings.HasSuffix
  rw [List.isSuffixOf_iff_suffix, String.data_append]
  exact List.suffix_append _ _

/-- The directory left by a successful `Pop` of `n` has the items of `d` without `n`. -/
theorem snapshot_after_pop (d : Dir) (n : String) (s : FloatText) (b : Bytes)
    (post : List String) (hs : snapshot d = n :: post) :
    snapshot (((d.erase n).insert (tmpPath n s) b).erase (tmpPath n s)) = post := by
  have hnd := snapshot_nodup d
  have hso : (snapshot d).Sorted (· ≤ ·) := sort_sorted _
  rw [hs] at hnd hso
  have hp : (snapshot (((d.erase n).insert (tmpPath n s) b).erase (tmpPath n s))).Perm post := by
    rw [List.perm_ext_iff_of_nodup (snapshot_nodup _) (List.nodup_cons.mp hnd).2]
    intro m
    rw [(mem_snapshot_claimed (d := d) (n := n) s b m).2, hs, List.mem_cons]
    constructor
    · rintro ⟨h1 | h1, h2⟩
      · exact absurd h1 h2
      · exact h1
    · intro h1
      refine ⟨Or.inr h1, ?_⟩
      rintro rfl
      exact (List.nodup_cons.mp hnd).1 h1
  exact List.eq_of_perm_of_sorted (r := (· ≤ ·)) hp (sort_sorted _) hso.of_cons

/-- C1: when the listing succeeds, `Pop` walks the `.item` names in ascending order
(`pre ++ n :: post` is the strictly sorted list of exactly the `.item` entries); if the
claims of the names `pre` fail and the claim, read and delete of `n` succeed, `Pop` returns
the content stored under `n` and no error, the names of `pre` are skipped (their failed
renames are all that is executed for them), afterwards `n` is gone, the claim file is gone,
every entry other than `n` and the claim name is unchanged (every entry other than `n`, when
the claim name was not in use before), `Len` has dropped by one, and when no rename fails
`n` is the smallest `.item` name. -/
theorem C1_Pop_returns_first_claimed (o : Outcomes) (d : Dir) (pre post : List String)
    (n : String)
    (hsnap : (listItemsSorted o.readDir ⟨d, []⟩).1 = .ok (pre ++ n :: post))
    (hpre : ∀ m ∈ pre, o.rename m ≠ none)
    (hn : o.rename n = none)
    (hread : o.readFile (tmpPath n (o.float n)) = none)
    (hremove : o.remove (tmpPath n (o.float n)) = none) :
    (pre ++ n :: post).Sorted (· < ·) ∧
    (∀ m, m ∈ pre ++ n :: post ↔ m ∈ d ∧ strings.HasSuffix m ".item" = true) ∧
    (∃ b, d.lookup n = some b ∧ (Pop o ⟨d, []⟩).1 = (some b, none)) ∧
    (Pop o ⟨d, []⟩).2.trace
      = [Op.readDir true] ++ failedRenames o pre ++
          [Op.rename n (tmpPath n (o.float n)) true,
           Op.readFile (tmpPath n (o.float n)) true,
           Op.remove (tmpPath n (o.float n)) true] ∧
    (Pop o ⟨d, []⟩).2.dir.lookup n = none ∧
    (Pop o ⟨d, []⟩).2.dir.lookup (tmpPath n (o.float n)) = none ∧
    (∀ m, m ≠ n → m ≠ tmpPath n (o.float n) →
      (Pop o ⟨d, []⟩).2.dir.lookup m = d.lookup m) ∧
    (tmpPath n (o.float n) ∉ d →
      ∀ m, m ≠ n → (Pop o ⟨d, []⟩).2.dir.lookup m = d.lookup m) ∧
    (Len none (Pop o ⟨d, []⟩).2).1 = ((Len none ⟨d, []⟩).1.1 - 1, none) ∧
    ((∀ m, o.rename m = none) →
      ∀ m, m ∈ d → strings.HasSuffix m ".item" = true → n ≤ m) := by
  obtain ⟨hrd, hs⟩ := listItemsSorted_eq_ok hsnap
  simp only at hs
  have hsorted : (pre ++ n :: post).Sorted (· < ·) := hs ▸ snapshot_sorted d
  have hmem : ∀ m, m ∈ pre ++ n :: post ↔ m ∈ d ∧ strings.HasSuffix m ".item" = true := by
    intro m
    rw [← hs]
    exact mem_snapshot
  have hnsnap : n ∈ snapshot d := by
    rw [hs]
    simp
  have hnd : n ∈ d := ((hmem n).mp (by simp)).1
  obtain ⟨b, hb⟩ := Option.isSome_iff_exists.mp (AList.lookup_isSome.mpr hnd)
  have hpop := Pop_success o d [] pre post n b hrd hs hb hpre hn hread hremove
  rw [List.nil_append] at hpop
  have hne : n ≠ tmpPath n (o.float n) := (tmpPath_ne n (o.float n)).symm
  have hother : ∀ m, m ≠ n → m ≠ tmpPath n (o.float n) →
      (Pop o ⟨d, []⟩).2.dir.lookup m = d.lookup m := by
    intro m h1 h2
    rw [hpop]
    simp only
    rw [AList.lookup_erase_ne h2, AList.lookup_insert_ne h2, AList.lookup_erase_ne h1]
  have hclaim : (Pop o ⟨d, []⟩).2.dir.lookup (tmpPath n (o.float n)) = none := by
    rw [hpop]
    simp only
    rw [AList.lookup_erase]
  refine ⟨hsorted, hmem, ⟨b, hb, by rw [hpop]⟩, by rw [hpop], ?_, hclaim, hother, ?_, ?_, ?_⟩
  · rw [hpop]
    simp only
    rw [AList.lookup_erase_ne hne, AList.lookup_insert_ne hne, AList.lookup_erase]
  · intro hfresh m h1
    by_cases h2 : m = tmpPath n (o.float n)
    · rw [h2, hclaim]
      exact (AList.lookup_eq_none.mpr hfresh).symm
    · exact hother m h1 h2
  · rw [hpop, Len_ok, Len_ok]
    simp only
    have := snapshot_length_remove hnsnap
      (fun m => (mem_snapshot_claimed (d := d) (n := n) (o.float n) b m).2)
    rw [← this]
    simp
  · intro hall m hm hitem
    have hpre0 : pre = [] := by
      cases pre with
      | nil => rfl
      | cons x _ => exact absurd (hall x) (hpre x (List.mem_cons_self _ _))
    subst hpre0
    have hm2 : m ∈ n :: post := (hmem m).mpr ⟨hm, hitem⟩
    rcases List.mem_cons.mp hm2 with h | h
    · exact le_of_eq h.symm
    · exact le_of_lt (List.rel_of_sorted_cons hsorted m h)

theorem C1_Pop_returns_first_claimed_witness :
    (listItemsSorted firstTaken.readDir ⟨exampleDir, []⟩).1 = .ok (["1.item"] ++ "2.item" :: []) ∧
    (Pop firstTaken ⟨exampleDir, []⟩).1 = (some [2], none) ∧
    (Pop firstTaken ⟨exampleDir, []⟩).2.dir.lookup "2.item" = none ∧
    (Len none (Pop firstTaken ⟨exampleDir, []⟩).2).1
      = ((Len none ⟨exampleDir, []⟩).1.1 - 1, none) := by
  have h := C1_Pop_returns_first_claimed firstTaken exampleDir ["1.item"] [] "2.item"
    rfl (by decide) (by decide) (by decide) (by decide)
  exact ⟨rfl, by decide, h.2.2.2.2.1, h.2.2.2.2.2.2.2.2.1⟩

/-! ## Pop: the "no item" result -/

theorem failedRenames_all_isRename (o : Outcomes) (l : List String) :
    (failedRenames o l).filter Op.isRename = failedRenames o l ∧
    (failedRenames o l).filter Op.isReadDir = [] ∧
    (failedRenames o l).filter Op.isReadOrRemove = [] ∧
    (failedRenames o l).filter Op.isClaim = [] := by
  induction l with
  | nil => simp [failedRenames]
  | cons m l ih =>
    simp only [failedRenames, List.map_cons] at ih ⊢
    simp [List.filter_cons, Op.isRename, Op.isReadDir, Op.isReadOrRemove, Op.isClaim, ih]

/-- C6: when the listing succeeds and the rename of every snapshot entry fails (in
particular when the snapshot is empty), `Pop` returns `(nil, nil)`; the primitives it
executed are one listing followed by one failed rename per snapshot entry, in order, each
entry once; so it listed once, renamed at most `len(snapshot)` times, read and deleted
nothing; and the directory is unchanged. -/
theorem C6_Pop_no_item (o : Outcomes) (d : Dir) (items : List String)
    (hsnap : (listItemsSorted o.readDir ⟨d, []⟩).1 = .ok items)
    (hfail : ∀ m ∈ items, o.rename m ≠ none) :
    (Pop o ⟨d, []⟩).1 = (none, none) ∧
    (Pop o ⟨d, []⟩).2.trace = Op.readDir true :: failedRenames o items ∧
    items.Nodup ∧
    ((Pop o ⟨d, []⟩).2.trace.filter Op.isReadDir).length = 1 ∧
    ((Pop o ⟨d, []⟩).2.trace.filter Op.isRename).length ≤ items.length ∧
    (Pop o ⟨d, []⟩).2.trace.filter Op.isReadOrRemove = [] ∧
    (Pop o ⟨d, []⟩).2.dir = d := by
  obtain ⟨hrd, hs⟩ := listItemsSorted_eq_ok hsnap
  simp only at hs
  have hpop : Pop o ⟨d, []⟩ = ((none, none), ⟨d, Op.readDir true :: failedRenames o items⟩) := by
    rw [Pop_of_listed o _ hrd]
    simp only [hs]
    split
    · rename_i h0
      have : items = [] := List.length_eq_zero.mp h0
      subst this
      simp [World.log, failedRenames]
    · have := popLoop_skip o items [] (World.log ⟨d, []⟩ (.readDir true)) hfail
      rw [List.append_nil] at this
      rw [this]
      simp [World.log, popLoop]
  have hf := failedRenames_all_isRename o items
  refine ⟨by rw [hpop], by rw [hpop], hs ▸ snapshot_nodup d, ?_, ?_, ?_, by rw [hpop]⟩
  · rw [hpop]
    simp [List.filter_cons, Op.isReadDir, hf.2.1]
  · rw [hpop]
    have hl : (failedRenames o items).length = items.length := by simp [failedRenames]
    simp [List.filter_cons, Op.isRename, hf.1, hl]
  · rw [hpop]
    simp [List.filter_cons, Op.isReadOrRemove, hf.2.2.1]

theorem C6_Pop_no_item_witness :
    (listItemsSorted allTaken.readDir ⟨exampleDir, []⟩).1 = .ok ["1.item", "2.item"] ∧
    (Pop allTaken ⟨exampleDir, []⟩).1 = (none, none) ∧
    (Pop allTaken ⟨exampleDir, []⟩).2.dir = exampleDir :=
  have h := C6_Pop_no_item allTaken exampleDir ["1.item", "2.item"] rfl (by decide)
  ⟨rfl, h.1, h.2.2.2.2.2.2⟩

/-! ## Len -/

theorem snapshot_length (d : Dir) :
    (snapshot d).length
      = (d.keys.filter (fun name => strings.HasSuffix name ".item")).length := by
  unfold snapshot
  exact ((sort_perm _).trans ((sort_perm d.keys).filter _)).length_eq

/-- C8: if the listing succeeds `Len` returns the number of directory entries whose name
ends in `.item` and no error (0 for the empty directory); if the listing fails with `e` it
returns `(-1, e)`; in both cases the directory is unchanged. -/
theorem C8_Len_counts_items (d : Dir) (e : Error) :
    (Len none ⟨d, []⟩).1
      = (((d.keys.filter (fun name => strings.HasSuffix name ".item")).length : Int), none) ∧
    (Len none ⟨d, []⟩).2.dir = d ∧
    (Len none ⟨∅, []⟩).1 = (0, none) ∧
    (Len (some e) ⟨d, []⟩).1 = (-1, some e) ∧
    (Len (some e) ⟨d, []⟩).2.dir = d := by
  refine ⟨?_, rfl, rfl, rfl, rfl⟩
  rw [Len_ok, snapshot_length]

/-! ## Pop: hard errors after a successful claim -/

theorem popLoop_read_error (o : Outcomes) (n : String) (post : List String) (w : World)
    (b : Bytes) (e : Error)
    (hb : w.dir.lookup n = some b)
    (hn : o.rename n = none)
    (hread : o.readFile (tmpPath n (o.float n)) = some e) :
    popLoop o (n :: post) w
      = ((none, some e),
         ⟨(w.dir.erase n).insert (tmpPath n (o.float n)) b,
          w.trace ++ [.rename n (tmpPath n (o.float n)) true,
                      .readFile (tmpPath n (o.float n)) false]⟩) := by
  simp [popLoop, os.Rename, os.ReadFile, hb, hn, hread, World.log]

theorem popLoop_remove_error (o : Outcomes) (n : String) (post : List String) (w : World)
    (b : Bytes) (e : Error)
    (hb : w.dir.lookup n = some b)
    (hn : o.rename n = none)
    (hread : o.readFile (tmpPath n (o.float n)) = none)
    (hremove : o.remove (tmpPath n (o.float n)) = some e) :
    popLoop o (n :: post) w
      = ((none, some e),
         ⟨(w.dir.erase n).insert (tmpPath n (o.float n)) b,
          w.trace ++ [.rename n (tmpPath n (o.float n)) true,
                      .readFile (tmpPath n (o.float n)) true,
                      .remove (tmpPath n (o.float n)) false]⟩) := by
  simp [popLoop, os.Rename, os.ReadFile, os.Remove, hb, hn, hread, hremove, World.log]

theorem not_mem_failedRenames (o : Outcomes) (l : List String) (m dst : String) (ok : Bool)
    (h : m ∉ l) : Op.rename m dst ok ∉ failedRenames o l := by
  intro hmem
  simp only [failedRenames, List.mem_map] at hmem
  obtain ⟨x, hx, heq⟩ := hmem
  injection heq with h1 _ _
  exact h (h1 ▸ hx)

/-- C7: if the claims of the names `pre` fail, the claim of `n` succeeds, and then the read
fails with `e`, or the read succeeds and the delete fails with `e`, `Pop` returns a nil
payload and the error `e`; no entry after `n` is tried (no rename of a name of `post` is
executed, `n` is the only claim); the item is not restored: `n` is absent afterwards and
`Len` counts one item fewer; on read failure the content of `n` is stored under the claim
name. -/
theorem C7_Pop_hard_errors (o : Outcomes) (d : Dir) (pre post : List String) (n : String)
    (e : Error)
    (hsnap : (listItemsSorted o.readDir ⟨d, []⟩).1 = .ok (pre ++ n :: post))
    (hpre : ∀ m ∈ pre, o.rename m ≠ none)
    (hn : o.rename n = none)
    (herr : o.readFile (tmpPath n (o.float n)) = some e ∨
      (o.readFile (tmpPath n (o.float n)) = none ∧
        o.remove (tmpPath n (o.float n)) = some e)) :
    (Pop o ⟨d, []⟩).1 = (none, some e) ∧
    (∀ m ∈ post, ∀ dst ok, Op.rename m dst ok ∉ (Pop o ⟨d, []⟩).2.trace) ∧
    (Pop o ⟨d, []⟩).2.trace.filter Op.isClaim
      = [Op.rename n (tmpPath n (o.float n)) true] ∧
    (o.readFile (tmpPath n (o.float n)) = some e →
      (Pop o ⟨d, []⟩).2.trace.filter Op.isReadOrRemove
        = [Op.readFile (tmpPath n (o.float n)) false]) ∧
    (o.readFile (tmpPath n (o.float n)) = none →
      (Pop o ⟨d, []⟩).2.trace.filter Op.isReadOrRemove
        = [Op.readFile (tmpPath n (o.float n)) true,
           Op.remove (tmpPath n (o.float n)) false]) ∧
    (Pop o ⟨d, []⟩).2.dir.lookup n = none ∧
    (Len none (Pop o ⟨d, []⟩).2).1 = ((Len none ⟨d, []⟩).1.1 - 1, none) ∧
    (o.readFile (tmpPath n (o.float n)) = some e →
      (d.lookup n).isSome = true ∧
      (Pop o ⟨d, []⟩).2.dir.lookup (tmpPath n (o.float n)) = d.lookup n) := by
  obtain ⟨hrd, hs⟩ := listItemsSorted_eq_ok hsnap
  simp only at hs
  have hnodup : (pre ++ n :: post).Nodup := hs ▸ snapshot_nodup d
  have hnsnap : n ∈ snapshot d := by
    rw [hs]
    simp
  have hnd : n ∈ d := (mem_snapshot.mp hnsnap).1
  obtain ⟨b, hb⟩ := Option.isSome_iff_exists.mp (AList.lookup_isSome.mpr hnd)
  have hlen : ¬ (snapshot d).length = 0 := by
    rw [hs]
    simp
  have hne : n ≠ tmpPath n (o.float n) := (tmpPath_ne n (o.float n)).symm
  have hpop : ∃ T, Pop o ⟨d, []⟩
      = ((none, some e),
         ⟨(d.erase n).insert (tmpPath n (o.float n)) b,
          [Op.readDir true] ++ failedRenames o pre ++
            Op.rename n (tmpPath n (o.float n)) true :: T⟩) ∧
      ((o.readFile (tmpPath n (o.float n)) = some e ∧
          T = [Op.readFile (tmpPath n (o.float n)) false]) ∨
       (o.readFile (tmpPath n (o.float n)) = none ∧
          T = [Op.readFile (tmpPath n (o.float n)) true,
               Op.remove (tmpPath n (o.float n)) false])) := by
    rw [Pop_of_listed o _ hrd]
    simp only [hlen, if_false, hs]
    rw [popLoop_skip o pre (n :: post) _ hpre]
    rcases herr with hread | ⟨hread, hremove⟩
    · rw [popLoop_read_error o n post _ b e hb hn hread]
      exact ⟨_, by simp [World.log], Or.inl ⟨hread, rfl⟩⟩
    · rw [popLoop_remove_error o n post _ b e hb hn hread hremove]
      exact ⟨_, by simp [World.log], Or.inr ⟨hread, rfl⟩⟩
  obtain ⟨T, hpopT, hT⟩ := hpop
  have hf := failedRenames_all_isRename o pre
  have hpost : ∀ m ∈ post, m ∉ pre ∧ m ≠ n := by
    intro m hm
    rw [List.nodup_append] at hnodup
    obtain ⟨_, h2, h3⟩ := hnodup
    refine ⟨fun hp => h3 hp (List.mem_cons_of_mem _ hm), ?_⟩
    rintro rfl
    exact (List.nodup_cons.mp h2).1 hm
  refine ⟨by rw [hpopT], ?_, ?_, ?_, ?_, ?_, ?_, ?_⟩
  · intro m hm dst ok
    rw [hpopT]
    simp only [List.mem_append, List.mem_cons, List.mem_singleton, not_or]
    refine ⟨⟨by simp, not_mem_failedRenames o pre m dst ok (hpost m hm).1⟩, ?_, ?_⟩
    · intro h
      injection h with h1 _ _
      exact (hpost m hm).2 h1
    · rcases hT with ⟨_, rfl⟩ | ⟨_, rfl⟩ <;> simp
  · rw [hpopT]
    rcases hT with ⟨_, rfl⟩ | ⟨_, rfl⟩ <;>
      simp [List.filter_cons, Op.isClaim, hf.2.2.2]
  · intro hread
    rw [hpopT]
    rcases hT with ⟨_, rfl⟩ | ⟨h1, rfl⟩
    · simp [List.filter_cons, Op.isReadOrRemove, hf.2.2.1]
    · rw [h1] at hread
      exact absurd hread (by simp)
  · intro hread
    rw [hpopT]
    rcases hT with ⟨h1, rfl⟩ | ⟨_, rfl⟩
    · rw [h1] at hread
      exact absurd hread (by simp)
    · simp [List.filter_cons, Op.isReadOrRemove, hf.2.2.1]
  · rw [hpopT]
    simp only
    rw [AList.lookup_insert_ne hne, AList.lookup_erase]
  · rw [hpopT, Len_ok, Len_ok]
    simp only
    have := snapshot_length_remove hnsnap
      (fun m => (mem_snapshot_claimed (d := d) (n := n) (o.float n) b m).1)
    rw [← this]
    simp
  · intro _
    rw [hpopT]
    simp only
    rw [AList.lookup_insert, hb]
    exact ⟨rfl, rfl⟩

theorem C7_Pop_hard_errors_witness :
    (listItemsSorted readFails.readDir ⟨exampleDir, []⟩).1 = .ok ([] ++ "1.item" :: ["2.item"]) ∧
    (Pop readFails ⟨exampleDir, []⟩).1 = (none, some "input/output error") ∧
    (Pop readFails ⟨exampleDir, []⟩).2.dir.lookup "1.item" = none ∧
    (Len none (Pop readFails ⟨exampleDir, []⟩).2).1
      = ((Len none ⟨exampleDir, []⟩).1.1 - 1, none) :=
  have h := C7_Pop_hard_errors readFails exampleDir [] ["2.item"] "1.item"
    "input/output error" rfl (by decide) (by decide) (Or.inl (by decide))
  ⟨rfl, h.1, h.2.2.2.2.2.1, h.2.2.2.2.2.2.1⟩

/-! ## Pop: what `(nil, nil)` means -/

/-- The loop returns `(nil, nil)` only if every claim attempt failed; then it has executed
one failed rename per entry and nothing else. -/
theorem popLoop_nil_nil (o : Outcomes) (items : List String) (w : World)
    (h : (popLoop o items w).1 = (none, none)) :
    (∀ m ∈ items, o.rename m ≠ none ∨ w.dir.lookup m = none) ∧
    (popLoop o items w).2 = ⟨w.dir, w.trace ++ failedRenames o items⟩ := by
  induction items generalizing w with
  | nil => simp [popLoop, failedRenames]
  | cons item rest ih =>
    cases hr : o.rename item with
    | some e =>
      have hstep : popLoop o (item :: rest) w
          = popLoop o rest (w.log (.rename item (tmpPath item (o.float item)) false)) := by
        simp [popLoop, os.Rename, hr]
      rw [hstep] at h ⊢
      obtain ⟨h1, h2⟩ := ih _ h
      refine ⟨?_, ?_⟩
      · intro m hm
        rcases List.mem_cons.mp hm with rfl | hm
        · exact Or.inl (by simp [hr])
        · exact h1 m hm
      · rw [h2]
        simp [World.log, failedRenames]
    | none =>
      cases hl : w.dir.lookup item with
      | none =>
        have hstep : popLoop o (item :: rest) w
            = popLoop o rest (w.log (.rename item (tmpPath item (o.float item)) false)) := by
          simp [popLoop, os.Rename, hr, hl]
        rw [hstep] at h ⊢
        obtain ⟨h1, h2⟩ := ih _ h
        refine ⟨?_, ?_⟩
        · intro m hm
          rcases List.mem_cons.mp hm with rfl | hm
          · exact Or.inr hl
          · exact h1 m hm
        · rw [h2]
          simp [World.log, failedRenames]
      | some b =>
        exfalso
        revert h
        cases hrd : o.readFile (tmpPath item (o.float item)) with
        | some e =>
          rw [popLoop_read_error o item rest w b e hl hr hrd]
          simp
        | none =>
          cases hrm : o.remove (tmpPath item (o.float item)) with
          | some e =>
            rw [popLoop_remove_error o item rest w b e hl hr hrd hrm]
            simp
          | none =>
            rw [popLoop_claim o item rest w b hl hr hrd hrm]
            simp

/-- C9 as stated fails: with two items in the directory and the rename of each failing,
`Pop` returns `(nil, nil)` although the snapshot it listed holds `.item` entries. -/
theorem C9_counterexample :
    (Pop allTaken ⟨exampleDir, []⟩).1 = (none, none) ∧
    (listItemsSorted allTaken.readDir ⟨exampleDir, []⟩).1 = .ok ["1.item", "2.item"] :=
  ⟨by decide, rfl⟩

/-- C9, amended: if `Pop` returns a nil payload and a nil error then the listing succeeded
and the rename of every entry of the snapshot it listed (possibly none) failed: no item was
claimed and the directory is unchanged.  `Pop` never returns a nil payload with a nil error
after successfully claiming an item. -/
theorem C9_Pop_nil_nil_means_nothing_claimed (o : Outcomes) (d : Dir) :
    ((Pop o ⟨d, []⟩).1 = (none, none) →
      (listItemsSorted o.readDir ⟨d, []⟩).1 = .ok (snapshot d) ∧
      (∀ m ∈ snapshot d, o.rename m ≠ none) ∧
      (Pop o ⟨d, []⟩).2.trace = Op.readDir true :: failedRenames o (snapshot d) ∧
      (Pop o ⟨d, []⟩).2.dir = d) ∧
    ((Pop o ⟨d, []⟩).2.trace.filter Op.isClaim ≠ [] → (Pop o ⟨d, []⟩).1 ≠ (none, none)) := by
  have key : (Pop o ⟨d, []⟩).1 = (none, none) →
      (listItemsSorted o.readDir ⟨d, []⟩).1 = .ok (snapshot d) ∧
      (∀ m ∈ snapshot d, o.rename m ≠ none) ∧
      (Pop o ⟨d, []⟩).2.trace = Op.readDir true :: failedRenames o (snapshot d) ∧
      (Pop o ⟨d, []⟩).2.dir = d := by
    intro h
    cases hrd : o.readDir with
    | some e =>
      rw [Pop_of_listing_error o _ e hrd] at h
      simp at h
    | none =>
      rw [Pop_of_listed o _ hrd] at h ⊢
      refine ⟨by rw [listItemsSorted_ok], ?_⟩
      split at h
      · rename_i h0
        have h0' : snapshot d = [] := List.length_eq_zero.mp h0
        simp [h0', World.log, failedRenames]
      · rename_i h0
        simp only [h0, if_false]
        obtain ⟨h1, h2⟩ := popLoop_nil_nil o _ _ h
        rw [h2]
        refine ⟨?_, by simp [World.log], rfl⟩
        intro m hm
        rcases h1 m hm with h3 | h3
        · exact h3
        · exfalso
          have : m ∈ d := (mem_snapshot.mp hm).1
          rw [← AList.lookup_isSome] at this
          simp only [World.log] at h3
          rw [h3] at this
          exact absurd this (by simp)
  refine ⟨key, ?_⟩
  intro hclaim hnil
  apply hclaim
  rw [(key hnil).2.2.1]
  simp [List.filter_cons, Op.isClaim, (failedRenames_all_isRename o (snapshot d)).2.2.2]

theorem C9_Pop_nil_nil_means_nothing_claimed_witness :
    (Pop allTaken ⟨exampleDir, []⟩).1 = (none, none) ∧
    (Pop allTaken ⟨exampleDir, []⟩).2.dir = exampleDir ∧
    (Pop quiet ⟨exampleDir, []⟩).2.trace.filter Op.isClaim ≠ [] ∧
    (Pop quiet ⟨exampleDir, []⟩).1 ≠ (none, none) :=
  ⟨by decide,
   ((C9_Pop_nil_nil_means_nothing_claimed allTaken exampleDir).1 (by decide)).2.2.2,
   by decide,
   (C9_Pop_nil_nil_means_nothing_claimed quiet exampleDir).2 (by decide)⟩

/-! ## Push followed by Pop -/

theorem snapshot_eq_of_mem {d : Dir} {l : List String} (hso : l.Sorted (· < ·))
    (h : ∀ m, m ∈ snapshot d ↔ m ∈ l) : snapshot d = l := by
  have hnd : l.Nodup := hso.nodup
  have hp : (snapshot d).Perm l := (List.perm_ext_iff_of_nodup (snapshot_nodup _) hnd).mpr h
  exact List.eq_of_perm_of_sorted (r := (· ≤ ·)) hp (sort_sorted _) hso.le_of_lt

theorem mem_snapshot_insert {d : Dir} {name : String} (b : Bytes)
    (hitem : strings.HasSuffix name ".item" = true) (m : String) :
    m ∈ snapshot (d.insert name b) ↔ m = name ∨ m ∈ snapshot d := by
  simp only [mem_snapshot, AList.mem_insert]
  constructor
  · rintro ⟨h1 | h1, h2⟩
    · exact Or.inl h1
    · exact Or.inr ⟨h1, h2⟩
  · rintro (h1 | ⟨h1, h2⟩)
    · exact ⟨Or.inl h1, h1 ▸ hitem⟩
    · exact ⟨Or.inr h1, h2⟩

theorem snapshot_eq_nil {d : Dir} (h : ∀ m, m ∈ d → strings.HasSuffix m ".item" = false) :
    snapshot d = [] := by
  apply List.eq_nil_iff_forall_not_mem.mpr
  intro m hm
  obtain ⟨h1, h2⟩ := mem_snapshot.mp hm
  rw [h m h1] at h2
  exact absurd h2 (by decide)

theorem Push_ok (now : Int) (b : Bytes) (d : Dir) (t : List Op) :
    Push now none b ⟨d, t⟩
      = (none, ⟨d.insert (formatInt now ++ ".item") b,
                t ++ [Op.writeFile (formatInt now ++ ".item") true]⟩) := rfl

/-- C2: on a directory without `.item` entries, `Push(b)` followed by `Pop()`, no primitive
failing, returns no error and the present payload `b` (present also when `b` is empty, so
different from the nil "no item" result), and a following `Len()` returns 0. -/
theorem C2_Push_Pop_round_trip (d : Dir) (b : Bytes) (now : Int) (o : Outcomes)
    (hempty : ∀ m, m ∈ d → strings.HasSuffix m ".item" = false)
    (hlist : o.readDir = none)
    (hrename : ∀ m, o.rename m = none)
    (hread : ∀ m, o.readFile m = none)
    (hremove : ∀ m, o.remove m = none) :
    (Push now none b ⟨d, []⟩).1 = none ∧
    (Pop o (Push now none b ⟨d, []⟩).2).1 = (some b, none) ∧
    (Pop o (Push now none b ⟨d, []⟩).2).1 ≠ (none, none) ∧
    (Len none (Pop o (Push now none b ⟨d, []⟩).2).2).1 = (0, none) := by
  have hitem := hasSuffix_item (formatInt now)
  have hs : snapshot (d.insert (formatInt now ++ ".item") b) = [formatInt now ++ ".item"] := by
    apply snapshot_eq_of_mem (List.sorted_singleton _)
    intro m
    rw [mem_snapshot_insert b hitem, snapshot_eq_nil hempty]
    simp
  have hpop := Pop_success o (d.insert (formatInt now ++ ".item") b)
    [Op.writeFile (formatInt now ++ ".item") true] [] [] (formatInt now ++ ".item") b hlist hs
    (AList.lookup_insert _) (by simp) (hrename _) (hread _) (hremove _)
  rw [Push_ok]
  simp only [List.nil_append]
  rw [hpop]
  refine ⟨trivial, rfl, by simp, ?_⟩
  rw [Len_ok]
  simp only
  rw [snapshot_after_pop _ _ _ _ [] hs]
  rfl

theorem C2_Push_Pop_round_trip_witness :
    (Pop quiet (Push 1700000000000000000 none [] ⟨∅, []⟩).2).1 = (some [], none) ∧
    (Len none (Pop quiet (Push 1700000000000000000 none [] ⟨∅, []⟩).2).2).1 = (0, none) :=
  have h := C2_Push_Pop_round_trip ∅ [] 1700000000000000000 quiet
    (by simp) rfl (fun _ => rfl) (fun _ => rfl) (fun _ => rfl)
  ⟨h.2.1, h.2.2.2⟩

/-! ## Claim files are not items -/

/-- The ways one iteration of the loop of `Pop` can go. -/
theorem popLoop_cons_cases (o : Outcomes) (item : String) (rest : List String) (w : World) :
    (popLoop o (item :: rest) w
        = popLoop o rest ⟨w.dir, w.trace ++ [.rename item (tmpPath item (o.float item)) false]⟩) ∨
    (∃ b r T, w.dir.lookup item = some b ∧
      (popLoop o (item :: rest) w
          = (r, ⟨(w.dir.erase item).insert (tmpPath item (o.float item)) b,
                 w.trace ++ Op.rename item (tmpPath item (o.float item)) true :: T⟩) ∨
       popLoop o (item :: rest) w
          = (r, ⟨((w.dir.erase item).insert (tmpPath item (o.float item)) b).erase
                    (tmpPath item (o.float item)),
                 w.trace ++ Op.rename item (tmpPath item (o.float item)) true :: T⟩)) ∧
      ∀ op ∈ T, op.isRename = false) := by
  cases hr : o.rename item with
  | some e =>
    left
    simp [popLoop, os.Rename, hr, World.log]
  | none =>
    cases hl : w.dir.lookup item with
    | none =>
      left
      simp [popLoop, os.Rename, hr, hl, World.log]
    | some b =>
      right
      cases hrd : o.readFile (tmpPath item (o.float item)) with
      | some e =>
        refine ⟨b, _, _, rfl, Or.inl (popLoop_read_error o item rest w b e hl hr hrd), ?_⟩
        simp [Op.isRename]
      | none =>
        cases hrm : o.remove (tmpPath item (o.float item)) with
        | some e =>
          refine ⟨b, _, _, rfl, Or.inl (popLoop_remove_error o item rest w b e hl hr hrd hrm), ?_⟩
          simp [Op.isRename]
        | none =>
          refine ⟨b, _, _, rfl, Or.inr (popLoop_claim o item rest w b hl hr hrd hrm), ?_⟩
          simp [Op.isRename]

/-- An item entry present after a claim, or after a claim and the delete of the claim file,
was there before, with the same content. -/
theorem lookup_item_after_claim {d : Dir} {item m : String} (s : FloatText) (b c : Bytes)
    (hm : strings.HasSuffix m ".item" = true)
    (h : ((d.erase item).insert (tmpPath item s) b).lookup m = some c ∨
         (((d.erase item).insert (tmpPath item s) b).erase (tmpPath item s)).lookup m = some c) :
    d.lookup m = some c := by
  have hmt : m ≠ tmpPath item s := by
    rintro rfl
    rw [tmpPath_not_item] at hm
    exact absurd hm (by decide)
  have h1 : (d.erase item).lookup m = some c := by
    rcases h with h | h
    · rwa [AList.lookup_insert_ne hmt] at h
    · rwa [AList.lookup_erase_ne hmt, AList.lookup_insert_ne hmt] at h
  by_cases hmi : m = item
  · rw [hmi, AList.lookup_erase] at h1
    exact absurd h1 (by simp)
  · rwa [AList.lookup_erase_ne hmi] at h1

/-- The loop of `Pop` creates no item entry and renames only names it was given. -/
theorem popLoop_creates_no_item (o : Outcomes) (items : List String) (w : World) :
    (∀ m c, strings.HasSuffix m ".item" = true →
      (popLoop o items w).2.dir.lookup m = some c → w.dir.lookup m = some c) ∧
    (∀ src dst ok, Op.rename src dst ok ∈ (popLoop o items w).2.trace →
      Op.rename src dst ok ∈ w.trace ∨ src ∈ items) := by
  induction items generalizing w with
  | nil => simp [popLoop]
  | cons item rest ih =>
    rcases popLoop_cons_cases o item rest w with h | ⟨b, r, T, hb, h, hT⟩
    · rw [h]
      obtain ⟨h1, h2⟩ := ih ⟨w.dir, w.trace ++ [.rename item (tmpPath item (o.float item)) false]⟩
      refine ⟨h1, ?_⟩
      intro src dst ok hmem
      rcases h2 src dst ok hmem with h3 | h3
      · simp only [List.mem_append, List.mem_singleton] at h3
        rcases h3 with h3 | h3
        · exact Or.inl h3
        · injection h3 with h4 _ _
          exact Or.inr (h4 ▸ List.mem_cons_self _ _)
      · exact Or.inr (List.mem_cons_of_mem _ h3)
    · have htrace : ∀ src dst ok,
          Op.rename src dst ok ∈ w.trace ++ Op.rename item (tmpPath item (o.float item)) true :: T →
          Op.rename src dst ok ∈ w.trace ∨ src ∈ item :: rest := by
        intro src dst ok hmem
        simp only [List.mem_append, List.mem_cons] at hmem
        rcases hmem with h3 | h3 | h3
        · exact Or.inl h3
        · injection h3 with h4 _ _
          exact Or.inr (h4 ▸ List.mem_cons_self _ _)
        · have := hT _ h3
          simp [Op.isRename] at this
      rcases h with h | h
      · rw [h]
        exact ⟨fun m c hm hl => lookup_item_after_claim (o.float item) b c hm (Or.inl hl), htrace⟩
      · rw [h]
        exact ⟨fun m c hm hl => lookup_item_after_claim (o.float item) b c hm (Or.inr hl), htrace⟩

/-- C10: a claim name `n.pop-s`, `s` a printed float, does not end in `.item`; so it is
never in the list `listItemsSorted` returns, a claim file in the directory does not change
what `Len` returns, and no `Pop` renames it; no step of `Len` or `Pop` creates an entry
whose name ends in `.item`: a claim (rename to a claim name), a delete and a whole `Pop`
leave only `.item` entries that were there before, with their content, and `Len` leaves the
directory as it is. -/
theorem C10_claim_files_invisible (n : String) (s : FloatText) (d : Dir) (b : Bytes)
    (o : Outcomes) (fault : Option Error) :
    strings.HasSuffix (tmpPath n s) ".item" = false ∧
    (∀ items, (listItemsSorted fault ⟨d, []⟩).1 = .ok items → tmpPath n s ∉ items) ∧
    (Len fault ⟨d.insert (tmpPath n s) b, []⟩).1 = (Len fault ⟨d.erase (tmpPath n s), []⟩).1 ∧
    (∀ dst ok, Op.rename (tmpPath n s) dst ok ∉ (Pop o ⟨d, []⟩).2.trace) ∧
    (∀ m c, strings.HasSuffix m ".item" = true →
      (os.Rename fault n (tmpPath n s) ⟨d, []⟩).2.dir.lookup m = some c → d.lookup m = some c) ∧
    (∀ m c, (os.Remove fault n ⟨d, []⟩).2.dir.lookup m = some c → d.lookup m = some c) ∧
    (∀ m c, strings.HasSuffix m ".item" = true →
      (Pop o ⟨d, []⟩).2.dir.lookup m = some c → d.lookup m = some c) ∧
    (Len fault ⟨d, []⟩).2.dir = d := by
  have hni := tmpPath_not_item n s
  have hnotin : ∀ d' : Dir, tmpPath n s ∉ snapshot d' := by
    intro d' hmem
    have := (mem_snapshot.mp hmem).2
    rw [hni] at this
    exact absurd this (by decide)
  refine ⟨hni, ?_, ?_, ?_, ?_, ?_, ?_, ?_⟩
  · intro items h
    obtain ⟨_, hs⟩ := listItemsSorted_eq_ok h
    exact hs ▸ hnotin d
  · cases fault with
    | some e => rfl
    | none =>
      rw [Len_ok, Len_ok]
      simp only
      have : snapshot (d.insert (tmpPath n s) b) = snapshot (d.erase (tmpPath n s)) := by
        apply snapshot_congr
        intro m hm
        have hmt : m ≠ tmpPath n s := by
          rintro rfl
          rw [hni] at hm
          exact absurd hm (by decide)
        simp [AList.mem_insert, AList.mem_erase, hmt]
      rw [this]
  · intro dst ok hmem
    cases hrd : o.readDir with
    | some e =>
      rw [Pop_of_listing_error o _ e hrd] at hmem
      simp [World.log] at hmem
    | none =>
      rw [Pop_of_listed o _ hrd] at hmem
      split at hmem
      · simp [World.log] at hmem
      · rcases (popLoop_creates_no_item o _ _).2 _ _ _ hmem with h | h
        · simp [World.log] at h
        · exact hnotin d h
  · intro m c hm hl
    cases fault with
    | some e => exact hl
    | none =>
      cases hb : d.lookup n with
      | none =>
        simp only [os.Rename, hb, World.log] at hl
        exact hl
      | some b' =>
        simp only [os.Rename, hb] at hl
        exact lookup_item_after_claim s b' c hm (Or.inl hl)
  · intro m c hl
    cases fault with
    | some e => exact hl
    | none =>
      cases hb : d.lookup n with
      | none =>
        simp only [os.Remove, hb, World.log] at hl
        exact hl
      | some b' =>
        simp only [os.Remove, hb] at hl
        by_cases hmn : m = n
        · rw [hmn, AList.lookup_erase] at hl
          exact absurd hl (by simp)
        · rwa [AList.lookup_erase_ne hmn] at hl
  · intro m c hm hl
    cases hrd : o.readDir with
    | some e =>
      rw [Pop_of_listing_error o _ e hrd] at hl
      exact hl
    | none =>
      rw [Pop_of_listed o _ hrd] at hl
      split at hl
      · exact hl
      · exact (popLoop_creates_no_item o _ _).1 m c hm hl
  · cases fault with
    | some e => rfl
    | none => rfl

/-! ## Push: names built from the clock -/

/-- C4 at two pushes of distinct payloads at the same clock reading: both succeed, the
second overwrites the file of the first, and `Len` returns 1, not 2. -/
theorem C4_Push_same_clock_reading_overwrites :
    (Push 1700000000000000000 none [1] ⟨∅, []⟩).1 = none ∧
    (Push 1700000000000000000 none [2] (Push 1700000000000000000 none [1] ⟨∅, []⟩).2).1 = none ∧
    (Len none
      (Push 1700000000000000000 none [2] (Push 1700000000000000000 none [1] ⟨∅, []⟩).2).2).1
        = (1, none) ∧
    (Push 1700000000000000000 none [2]
      (Push 1700000000000000000 none [1] ⟨∅, []⟩).2).2.dir.entries
        = [⟨"1700000000000000000.item", [2]⟩] := by
  decide

/-- C3 at the clock readings 999999999 < 1000000000: the name of the later push sorts
first, and the first `Pop` returns the payload pushed last. -/
theorem C3_Pop_order_across_digit_lengths :
    (formatInt 1000000000 ++ ".item" < formatInt 999999999 ++ ".item") ∧
    (listItemsSorted none
      (Push 1000000000 none [98] (Push 999999999 none [97] ⟨∅, []⟩).2).2).1
        = .ok ["1000000000.item", "999999999.item"] ∧
    (Pop quiet (Push 1000000000 none [98] (Push 999999999 none [97] ⟨∅, []⟩).2).2).1
        = (some [98], none) := by
  refine ⟨?_, rfl, by decide⟩
  rw [String.lt_iff_toList_lt]
  decide

/-! ## Concurrent consumers: claim names identify the item -/

theorem append_cons_inj_of_not_mem {α : Type} {a : α} :
    ∀ {l₁ l₂ r₁ r₂ : List α}, l₁ ++ a :: r₁ = l₂ ++ a :: r₂ → a ∉ l₁ → a ∉ l₂ →
      l₁ = l₂ ∧ r₁ = r₂
  | [], [], _, _, h, _, _ => ⟨rfl, by simpa using h⟩
  | [], y :: l₂, _, _, h, _, h2 => by
    simp only [List.nil_append, List.cons_append, List.cons.injEq] at h
    exact absurd (h.1 ▸ List.mem_cons_self _ _) h2
  | x :: l₁, [], _, _, h, h1, _ => by
    simp only [List.nil_append, List.cons_append, List.cons.injEq] at h
    exact absurd (h.1 ▸ List.mem_cons_self _ _) h1
  | x :: l₁, y :: l₂, _, _, h, h1, h2 => by
    simp only [List.cons_append, List.cons.injEq] at h
    obtain ⟨ih1, ih2⟩ := append_cons_inj_of_not_mem h.2
      (fun hm => h1 (List.mem_cons_of_mem _ hm)) (fun hm => h2 (List.mem_cons_of_mem _ hm))
    exact ⟨by rw [h.1, ih1], ih2⟩

theorem floatText_no_p (s : FloatText) : 'p' ∉ s.val.data.reverse ++ ['-'] := by
  intro hmem
  rw [List.mem_append, List.mem_reverse, List.mem_singleton] at hmem
  rcases hmem with h | h
  · have := s.property
    unfold isFloatText at this
    rw [List.all_eq_true] at this
    exact absurd (this _ h) (by decide)
  · exact absurd h (by decide)

/-- The claim name determines the item it was made from. -/
theorem tmpPath_inj {n n' : String} {s s' : FloatText} (h : tmpPath n s = tmpPath n' s') :
    n = n' := by
  have h1 := congrArg (fun x : String => x.data.reverse) h
  simp only [tmpPath, String.data_append, List.reverse_append] at h1
  have h2 : (s.val.data.reverse ++ ['-']) ++ 'p' :: (['o', 'p', '.'] ++ n.data.reverse)
      = (s'.val.data.reverse ++ ['-']) ++ 'p' :: (['o', 'p', '.'] ++ n'.data.reverse) := by
    simpa using h1
  have h3 := (append_cons_inj_of_not_mem h2 (floatText_no_p s) (floatText_no_p s')).2
  have h4 : n.data.reverse = n'.data.reverse := by simpa using h3
  have h5 : n.data = n'.data := List.reverse_injective h4
  exact String.ext h5

/-! ## Concurrent consumers: the invariant -/

theorem Inv.init (d : Dir) (K : Nat) : Inv d K (Sys.init d K) where
  items_sub := fun _ _ _ h => h
  beyond := fun i hi => by simp [Sys.init, Nat.not_lt.mpr hi]
  trying := fun i rest h => by
    simp only [Sys.init] at h
    split at h <;> simp at h
  finished := fun i hi h => by simp [Sys.init, hi] at h
  holding := fun i item tmp h => by
    simp only [Sys.init] at h
    split at h <;> simp [Pc.holding] at h
  readOk := fun i item tmp b h => by
    simp only [Sys.init] at h
    split at h <;> simp at h
  unique := fun i j item tmp tmp' _ h _ => by
    simp only [Sys.init] at h
    split at h <;> simp [Pc.holding] at h
  delivered_nodup := by simp [Sys.init, Sys.deliveredNames]
  delivered_ok := fun x hx => by simp [Sys.init] at hx
  no_loss := fun n hn => Or.inl hn
  delivered_by := fun x hx => by simp [Sys.init] at hx

/-- A step of consumer `i` that changes neither the directory nor what `i` holds. -/
theorem Inv.local_step {d0 : Dir} {K : Nat} {σ : Sys} (h : Inv d0 K σ) (i : Nat) (p : Pc)
    (t : List Op)
    (hnd : σ.pc i ≠ Pc.done)
    (ht : ∀ rest, p = Pc.trying rest →
      (∀ m ∈ rest, strings.HasSuffix m ".item" = true) ∧
      (∀ m ∈ snapshot σ.world.dir, m ∈ rest))
    (hf : p = Pc.done → snapshot σ.world.dir = [])
    (hh : p.holding = (σ.pc i).holding)
    (hr : ∀ item tmp b, p = Pc.read item tmp b → d0.lookup item = some b) :
    Inv d0 K ⟨⟨σ.world.dir, t⟩, Function.update σ.pc i p, σ.delivered⟩ := by
  have hiK : i < K := by
    by_contra hc
    exact hnd (h.beyond i (Nat.le_of_not_lt hc))
  have hhold : ∀ j, (Function.update σ.pc i p j).holding = (σ.pc j).holding := by
    intro j
    by_cases hj : j = i
    · subst hj
      rw [Function.update_same, hh]
    · rw [Function.update_noteq hj]
  refine ⟨h.items_sub, ?_, ?_, ?_, ?_, ?_, ?_, h.delivered_nodup, h.delivered_ok, ?_,
    h.delivered_by⟩
  · intro j hj
    have hji : j ≠ i := by omega
    simp only [Function.update_noteq hji]
    exact h.beyond j hj
  · intro j rest hp
    by_cases hj : j = i
    · subst hj
      simp only [Function.update_same] at hp
      exact ht rest hp
    · simp only [Function.update_noteq hj] at hp
      exact h.trying j rest hp
  · intro j hjK hp
    by_cases hj : j = i
    · subst hj
      simp only [Function.update_same] at hp
      exact hf hp
    · simp only [Function.update_noteq hj] at hp
      exact h.finished j hjK hp
  · intro j item tmp hp
    simp only [hhold] at hp
    exact h.holding j item tmp hp
  · intro j item tmp b hp
    by_cases hj : j = i
    · subst hj
      simp only [Function.update_same] at hp
      exact hr item tmp b hp
    · simp only [Function.update_noteq hj] at hp
      exact h.readOk j item tmp b hp
  · intro j1 j2 item tmp tmp' hne h1 h2
    simp only [hhold] at h1 h2
    exact h.unique j1 j2 item tmp tmp' hne h1 h2
  · intro n hn
    rcases h.no_loss n hn with h1 | ⟨j, tmp, h1⟩ | h1
    · exact Or.inl h1
    · exact Or.inr (Or.inl ⟨j, tmp, by simp only [hhold]; exact h1⟩)
    · exact Or.inr (Or.inr h1)

theorem mem_deliveredNames {σ : Sys} {n : String} (h : n ∈ σ.deliveredNames) :
    ∃ x ∈ σ.delivered, x.2.1 = n := by
  simpa [Sys.deliveredNames] using h

/-- A claim name held by another consumer is untouched by the claim of a queued item. -/
theorem lookup_other_claim {D : Dir} {item item' : String} (s s' : FloatText) (b : Bytes)
    (hitem : strings.HasSuffix item ".item" = true) (hne : item' ≠ item) :
    ((D.erase item).insert (tmpPath item s) b).lookup (tmpPath item' s')
      = D.lookup (tmpPath item' s') := by
  have h1 : tmpPath item' s' ≠ tmpPath item s := fun h => hne (tmpPath_inj h)
  have h2 : tmpPath item' s' ≠ item := by
    intro h
    rw [← h, tmpPath_not_item] at hitem
    exact absurd hitem (by decide)
  rw [AList.lookup_insert_ne h1, AList.lookup_erase_ne h2]

/-- The step of consumer `i` that claims `item`: the rename succeeded. -/
theorem Inv.claim_step {d0 : Dir} {K : Nat} {σ : Sys} (h : Inv d0 K σ) (i : Nat)
    (item : String) (rest : List String) (s : FloatText) (b : Bytes) (t : List Op)
    (hpc : σ.pc i = Pc.trying (item :: rest))
    (hb : σ.world.dir.lookup item = some b) :
    Inv d0 K ⟨⟨(σ.world.dir.erase item).insert (tmpPath item s) b, t⟩,
      Function.update σ.pc i (Pc.claimed item (tmpPath item s)), σ.delivered⟩ := by
  have hiK : i < K := by
    by_contra hc
    have := h.beyond i (Nat.le_of_not_lt hc)
    rw [hpc] at this
    exact absurd this (by simp)
  have hitem : strings.HasSuffix item ".item" = true :=
    (h.trying i _ hpc).1 item (List.mem_cons_self _ _)
  have hmemD : item ∈ σ.world.dir := AList.lookup_isSome.mp (by rw [hb]; rfl)
  have hsnapD : item ∈ snapshot σ.world.dir := mem_snapshot.mpr ⟨hmemD, hitem⟩
  have hd0 : d0.lookup item = some b := h.items_sub item b hitem hb
  have hsnap0 : item ∈ snapshot d0 :=
    mem_snapshot.mpr ⟨AList.lookup_isSome.mp (by rw [hd0]; rfl), hitem⟩
  have hs1 : ∀ m, m ∈ snapshot ((σ.world.dir.erase item).insert (tmpPath item s) b)
      ↔ m ∈ snapshot σ.world.dir ∧ m ≠ item :=
    fun m => (mem_snapshot_claimed (d := σ.world.dir) (n := item) s b m).1
  have hold_i : (σ.pc i).holding = none := by rw [hpc]; rfl
  have hhold : ∀ j, j ≠ i →
      (Function.update σ.pc i (Pc.claimed item (tmpPath item s)) j).holding
        = (σ.pc j).holding := by
    intro j hj
    rw [Function.update_noteq hj]
  have hhold_i : (Function.update σ.pc i (Pc.claimed item (tmpPath item s)) i).holding
      = some (item, tmpPath item s) := by
    rw [Function.update_same]
    rfl
  refine ⟨?_, ?_, ?_, ?_, ?_, ?_, ?_, h.delivered_nodup, ?_, ?_, h.delivered_by⟩
  · intro m c hm hl
    exact h.items_sub m c hm (lookup_item_after_claim s b c hm (Or.inl hl))
  · intro j hj
    have hji : j ≠ i := by omega
    simp only [Function.update_noteq hji]
    exact h.beyond j hj
  · intro j rest' hp
    by_cases hj : j = i
    · subst hj
      simp only [Function.update_same] at hp
      exact absurd hp (by simp)
    · simp only [Function.update_noteq hj] at hp
      obtain ⟨h1, h2⟩ := h.trying j rest' hp
      exact ⟨h1, fun m hm => h2 m ((hs1 m).mp hm).1⟩
  · intro j hjK hp
    by_cases hj : j = i
    · subst hj
      simp only [Function.update_same] at hp
      exact absurd hp (by simp)
    · simp only [Function.update_noteq hj] at hp
      have := h.finished j hjK hp
      rw [this] at hsnapD
      exact absurd hsnapD (by simp)
  · intro j item' tmp' hp
    by_cases hj : j = i
    · subst hj
      rw [hhold_i] at hp
      injection hp with hp
      injection hp with hp1 hp2
      subst hp1 hp2
      refine ⟨⟨s, rfl⟩, hsnap0, ?_, ?_, ?_⟩
      · simp only
        rw [AList.lookup_insert, hd0]
      · intro hm
        exact ((hs1 _).mp hm).2 rfl
      · intro hm
        obtain ⟨x, hx, hxn⟩ := mem_deliveredNames hm
        exact (h.delivered_ok x hx).2.2 (hxn ▸ hsnapD)
    · rw [hhold j hj] at hp
      obtain ⟨⟨s', hs'⟩, h2, h3, h4, h5⟩ := h.holding j item' tmp' hp
      have hne : item' ≠ item := fun e => h4 (e ▸ hsnapD)
      refine ⟨⟨s', hs'⟩, h2, ?_, ?_, h5⟩
      · simp only
        rw [hs', lookup_other_claim s s' b hitem hne, ← hs']
        exact h3
      · intro hm
        exact h4 ((hs1 _).mp hm).1
  · intro j item' tmp' b' hp
    by_cases hj : j = i
    · subst hj
      simp only [Function.update_same] at hp
      exact absurd hp (by simp)
    · simp only [Function.update_noteq hj] at hp
      exact h.readOk j item' tmp' b' hp
  · intro j1 j2 item' tmp1 tmp2 hne h1 h2
    by_cases hj1 : j1 = i
    · subst hj1
      have hj2 : j2 ≠ j1 := fun e => hne e.symm
      rw [hhold_i] at h1
      rw [hhold j2 hj2] at h2
      injection h1 with h1
      injection h1 with h11 h12
      subst h11
      exact (h.holding j2 _ _ h2).2.2.2.1 hsnapD
    · rw [hhold j1 hj1] at h1
      by_cases hj2 : j2 = i
      · subst hj2
        rw [hhold_i] at h2
        injection h2 with h2
        injection h2 with h21 h22
        subst h21
        exact (h.holding j1 _ _ h1).2.2.2.1 hsnapD
      · rw [hhold j2 hj2] at h2
        exact h.unique j1 j2 item' tmp1 tmp2 hne h1 h2
  · intro x hx
    obtain ⟨h1, h2, h3⟩ := h.delivered_ok x hx
    exact ⟨h1, h2, fun hm => h3 ((hs1 _).mp hm).1⟩
  · intro n hn
    rcases h.no_loss n hn with h1 | ⟨j, tmp, h1⟩ | h1
    · by_cases hni : n = item
      · subst hni
        exact Or.inr (Or.inl ⟨i, tmpPath n s, hhold_i⟩)
      · exact Or.inl ((hs1 n).mpr ⟨h1, hni⟩)
    · have hj : j ≠ i := by
        rintro rfl
        rw [hold_i] at h1
        exact absurd h1 (by simp)
      exact Or.inr (Or.inl ⟨j, tmp, by rw [hhold j hj]; exact h1⟩)
    · exact Or.inr (Or.inr h1)

/-- The step of consumer `i` that deletes its claim file and returns the payload. -/
theorem Inv.delete_step {d0 : Dir} {K : Nat} {σ : Sys} (h : Inv d0 K σ) (i : Nat)
    (item tmp : String) (b : Bytes) (t : List Op)
    (hpc : σ.pc i = Pc.read item tmp b) :
    Inv d0 K ⟨⟨σ.world.dir.erase tmp, t⟩, Function.update σ.pc i Pc.idle,
      σ.delivered ++ [(i, item, b)]⟩ := by
  have hiK : i < K := by
    by_contra hc
    have := h.beyond i (Nat.le_of_not_lt hc)
    rw [hpc] at this
    exact absurd this (by simp)
  have hold_i : (σ.pc i).holding = some (item, tmp) := by rw [hpc]; rfl
  obtain ⟨⟨s, hs⟩, hsnap0, hlk, hnotq, hnotd⟩ := h.holding i item tmp hold_i
  have hd0 : d0.lookup item = some b := h.readOk i item tmp b hpc
  have hsnap : snapshot (σ.world.dir.erase tmp) = snapshot σ.world.dir := by
    apply snapshot_congr
    intro m hm
    have hmt : m ≠ tmp := by
      rintro rfl
      rw [hs, tmpPath_not_item] at hm
      exact absurd hm (by decide)
    simp [AList.mem_erase, hmt]
  have hhold : ∀ j, j ≠ i → (Function.update σ.pc i Pc.idle j).holding = (σ.pc j).holding := by
    intro j hj
    rw [Function.update_noteq hj]
  have hhold_i : (Function.update σ.pc i Pc.idle i).holding = none := by
    rw [Function.update_same]
    rfl
  have hnames : ∀ n, n ∈ Sys.deliveredNames
        ⟨⟨σ.world.dir.erase tmp, t⟩, Function.update σ.pc i Pc.idle,
          σ.delivered ++ [(i, item, b)]⟩ ↔ n ∈ σ.deliveredNames ∨ n = item := by
    intro n
    simp [Sys.deliveredNames]
  refine ⟨?_, ?_, ?_, ?_, ?_, ?_, ?_, ?_, ?_, ?_, ?_⟩
  · intro m c hm hl
    have hmt : m ≠ tmp := by
      rintro rfl
      rw [hs, tmpPath_not_item] at hm
      exact absurd hm (by decide)
    simp only at hl
    rw [AList.lookup_erase_ne hmt] at hl
    exact h.items_sub m c hm hl
  · intro j hj
    have hji : j ≠ i := by omega
    simp only [Function.update_noteq hji]
    exact h.beyond j hj
  · intro j rest' hp
    by_cases hj : j = i
    · subst hj
      simp only [Function.update_same] at hp
      exact absurd hp (by simp)
    · simp only [Function.update_noteq hj] at hp
      simp only [hsnap]
      exact h.trying j rest' hp
  · intro j hjK hp
    by_cases hj : j = i
    · subst hj
      simp only [Function.update_same] at hp
      exact absurd hp (by simp)
    · simp only [Function.update_noteq hj] at hp
      simp only [hsnap]
      exact h.finished j hjK hp
  · intro j item' tmp' hp
    by_cases hj : j = i
    · subst hj
      rw [hhold_i] at hp
      exact absurd hp (by simp)
    · rw [hhold j hj] at hp
      obtain ⟨⟨s', hs'⟩, h2, h3, h4, h5⟩ := h.holding j item' tmp' hp
      have hne : item' ≠ item := by
        rintro rfl
        exact h.unique j i item' tmp' tmp hj hp hold_i
      have htt : tmp' ≠ tmp := by
        rw [hs, hs']
        exact fun e => hne (tmpPath_inj e)
      refine ⟨⟨s', hs'⟩, h2, ?_, ?_, ?_⟩
      · simp only
        rw [AList.lookup_erase_ne htt]
        exact h3
      · simp only [hsnap]
        exact h4
      · rw [hnames]
        rintro (h6 | h6)
        · exact h5 h6
        · exact hne h6
  · intro j item' tmp' b' hp
    by_cases hj : j = i
    · subst hj
      simp only [Function.update_same] at hp
      exact absurd hp (by simp)
    · simp only [Function.update_noteq hj] at hp
      exact h.readOk j item' tmp' b' hp
  · intro j1 j2 item' tmp1 tmp2 hne h1 h2
    by_cases hj1 : j1 = i
    · subst hj1
      rw [hhold_i] at h1
      exact absurd h1 (by simp)
    · by_cases hj2 : j2 = i
      · subst hj2
        rw [hhold_i] at h2
        exact absurd h2 (by simp)
      · rw [hhold j1 hj1] at h1
        rw [hhold j2 hj2] at h2
        exact h.unique j1 j2 item' tmp1 tmp2 hne h1 h2
  · have : Sys.deliveredNames
        ⟨⟨σ.world.dir.erase tmp, t⟩, Function.update σ.pc i Pc.idle,
          σ.delivered ++ [(i, item, b)]⟩ = σ.deliveredNames ++ [item] := by
      simp [Sys.deliveredNames]
    rw [this]
    refine List.Nodup.append h.delivered_nodup (List.nodup_singleton _) ?_
    intro n h1 h2
    rw [List.mem_singleton] at h2
    exact hnotd (h2 ▸ h1)
  · intro x hx
    simp only [hsnap]
    simp only [List.mem_append, List.mem_singleton] at hx
    rcases hx with hx | rfl
    · exact h.delivered_ok x hx
    · exact ⟨hd0, hsnap0, hnotq⟩
  · intro n hn
    simp only [hsnap]
    rcases h.no_loss n hn with h1 | ⟨j, tmp', h1⟩ | h1
    · exact Or.inl h1
    · by_cases hj : j = i
      · subst hj
        rw [hold_i] at h1
        injection h1 with h1
        injection h1 with h11 h12
        exact Or.inr (Or.inr ((hnames n).mpr (Or.inr h11.symm)))
      · exact Or.inr (Or.inl ⟨j, tmp', by rw [hhold j hj]; exact h1⟩)
    · exact Or.inr (Or.inr ((hnames n).mpr (Or.inl h1)))
  · intro x hx
    simp only [List.mem_append, List.mem_singleton] at hx
    rcases hx with hx | rfl
    · exact h.delivered_by x hx
    · exact hiK

/-- Every atomic step keeps the invariant. -/
theorem Inv.step {d0 : Dir} {K : Nat} {σ σ' : Sys} (h : Inv d0 K σ) (ch : Choice)
    (hstep : σ.step ch = some σ') : Inv d0 K σ' := by
  unfold Sys.step at hstep
  cases hpc : σ.pc ch.consumer with
  | done =>
    rw [hpc] at hstep
    simp at hstep
  | idle =>
    rw [hpc] at hstep
    have hnd : σ.pc ch.consumer ≠ Pc.done := by rw [hpc]; simp
    cases hle : ch.listErr with
    | some e =>
      simp only [hle, listItemsSorted_error, World.log, Option.some.injEq] at hstep
      subst hstep
      have := h.local_step ch.consumer Pc.idle (σ.world.trace ++ [Op.readDir false]) hnd
        (by simp) (by simp) (by rw [hpc]) (by simp)
      rw [← hpc, Function.update_eq_self] at this
      exact this
    | none =>
      simp only [hle, listItemsSorted_ok, World.log] at hstep
      split at hstep
      · rename_i h0
        simp only [Option.some.injEq] at hstep
        subst hstep
        exact h.local_step ch.consumer Pc.done _ hnd (by simp)
          (fun _ => List.length_eq_zero.mp h0) (by rw [hpc]; rfl) (by simp)
      · simp only [Option.some.injEq] at hstep
        subst hstep
        refine h.local_step ch.consumer (Pc.trying (snapshot σ.world.dir)) _ hnd ?_
          (by simp) (by rw [hpc]; rfl) (by simp)
        intro rest hrest
        injection hrest with hrest
        subst hrest
        exact ⟨fun m hm => (mem_snapshot.mp hm).2, fun m hm => hm⟩
  | trying l =>
    rw [hpc] at hstep
    have hnd : σ.pc ch.consumer ≠ Pc.done := by rw [hpc]; simp
    cases l with
    | nil =>
      simp only [Option.some.injEq] at hstep
      subst hstep
      refine h.local_step ch.consumer Pc.done σ.world.trace hnd (by simp) ?_
        (by rw [hpc]; rfl) (by simp)
      intro _
      apply List.eq_nil_iff_forall_not_mem.mpr
      intro m hm
      exact absurd ((h.trying _ _ hpc).2 m hm) (by simp)
    | cons item rest =>
      cases hb : σ.world.dir.lookup item with
      | none =>
        simp only [os.Rename, hb, World.log, Option.some.injEq] at hstep
        subst hstep
        refine h.local_step ch.consumer (Pc.trying rest) _ hnd ?_ (by simp)
          (by rw [hpc]; rfl) (by simp)
        intro rest' hrest
        injection hrest with hrest
        subst hrest
        obtain ⟨h1, h2⟩ := h.trying _ _ hpc
        refine ⟨fun m hm => h1 m (List.mem_cons_of_mem _ hm), ?_⟩
        intro m hm
        rcases List.mem_cons.mp (h2 m hm) with h3 | h3
        · exfalso
          have hmd : m ∈ σ.world.dir := (mem_snapshot.mp hm).1
          rw [h3, ← AList.lookup_isSome, hb] at hmd
          exact absurd hmd (by simp)
        · exact h3
      | some b =>
        simp only [os.Rename, hb, Option.some.injEq] at hstep
        subst hstep
        exact h.claim_step ch.consumer item rest ch.float b _ hpc hb
  | claimed item tmp =>
    rw [hpc] at hstep
    have hnd : σ.pc ch.consumer ≠ Pc.done := by rw [hpc]; simp
    have hold : (σ.pc ch.consumer).holding = some (item, tmp) := by rw [hpc]; rfl
    obtain ⟨_, hsnap0, hlk, _, _⟩ := h.holding _ item tmp hold
    have hmem0 : item ∈ d0 := (mem_snapshot.mp hsnap0).1
    obtain ⟨b, hb⟩ := Option.isSome_iff_exists.mp (AList.lookup_isSome.mpr hmem0)
    rw [hb] at hlk
    simp only [os.ReadFile, hlk, World.log, Option.some.injEq] at hstep
    subst hstep
    refine h.local_step ch.consumer (Pc.read item tmp b) _ hnd (by simp) (by simp)
      (by rw [hpc]; rfl) ?_
    intro item' tmp' b' hp
    injection hp with h1 h2 h3
    subst h1 h3
    exact hb
  | read item tmp b =>
    rw [hpc] at hstep
    have hold : (σ.pc ch.consumer).holding = some (item, tmp) := by rw [hpc]; rfl
    obtain ⟨_, hsnap0, hlk, _, _⟩ := h.holding _ item tmp hold
    have hd0 := h.readOk _ item tmp b hpc
    rw [hd0] at hlk
    simp only [os.Remove, hlk, Option.some.injEq] at hstep
    subst hstep
    exact h.delete_step ch.consumer item tmp b _ hpc

/-- Every state a schedule reaches satisfies the invariant. -/
theorem Inv.run {d0 : Dir} {K : Nat} (sched : List Choice) {σ σ' : Sys} (h : Inv d0 K σ)
    (hrun : Sys.run sched σ = some σ') : Inv d0 K σ' := by
  induction sched generalizing σ with
  | nil =>
    simp only [Sys.run, Option.some.injEq] at hrun
    exact hrun ▸ h
  | cons ch rest ih =>
    simp only [Sys.run] at hrun
    cases hs : σ.step ch with
    | none =>
      rw [hs] at hrun
      simp at hrun
    | some σ1 =>
      rw [hs] at hrun
      exact ih (h.step ch hs) hrun

/-! ## Concurrent consumers: every run ends -/

theorem sum_weight_update (M K : Nat) (pc : Nat → Pc) (i : Nat) (hi : i < K) (p : Pc) :
    Finset.sum (Finset.range K) (fun j => (Function.update pc i p j).weight M)
        + (pc i).weight M
      = Finset.sum (Finset.range K) (fun j => (pc j).weight M) + p.weight M := by
  have hmem : i ∈ Finset.range K := Finset.mem_range.mpr hi
  have h1 : (fun j => (Function.update pc i p j).weight M)
      = Function.update (fun j => (pc j).weight M) i (p.weight M) := by
    funext j
    by_cases hj : j = i
    · subst hj
      simp
    · simp [Function.update_noteq hj]
  rw [h1, Finset.sum_update_of_mem hmem, Finset.sdiff_singleton_eq_erase,
    ← Finset.add_sum_erase _ _ hmem]
  omega

theorem Inv.delivered_length_le {d0 : Dir} {K : Nat} {σ : Sys} (h : Inv d0 K σ) :
    σ.delivered.length ≤ (snapshot d0).length := by
  have hsub : σ.deliveredNames ⊆ snapshot d0 := by
    intro n hn
    obtain ⟨x, hx, hxn⟩ := mem_deliveredNames hn
    exact hxn ▸ (h.delivered_ok x hx).2.1
  have := (h.delivered_nodup.subperm hsub).length_le
  simpa [Sys.deliveredNames] using this

theorem Inv.snapshot_length_le {d0 : Dir} {K : Nat} {σ : Sys} (h : Inv d0 K σ) :
    (snapshot σ.world.dir).length ≤ (snapshot d0).length := by
  have hsub : snapshot σ.world.dir ⊆ snapshot d0 := by
    intro m hm
    obtain ⟨h1, h2⟩ := mem_snapshot.mp hm
    obtain ⟨c, hc⟩ := Option.isSome_iff_exists.mp (AList.lookup_isSome.mpr h1)
    exact mem_snapshot.mpr ⟨AList.lookup_isSome.mp (by rw [h.items_sub m c h2 hc]; rfl), h2⟩
  exact ((snapshot_nodup _).subperm hsub).length_le

theorem Inv.lt_of_not_done {d0 : Dir} {K : Nat} {σ : Sys} (h : Inv d0 K σ) {i : Nat}
    (hnd : σ.pc i ≠ Pc.done) : i < K := by
  by_contra hc
  exact hnd (h.beyond i (Nat.le_of_not_lt hc))

theorem measure_update_lt (M K : Nat) (σ : Sys) (i : Nat) (hi : i < K) (p : Pc) (w : World)
    (hlt : p.weight M < (σ.pc i).weight M) :
    Sys.measure M K ⟨w, Function.update σ.pc i p, σ.delivered⟩ < Sys.measure M K σ := by
  have hsum := sum_weight_update M K σ.pc i hi p
  unfold Sys.measure
  dsimp only
  omega

theorem measure_deliver_lt (M K : Nat) (σ : Sys) (i : Nat) (hi : i < K) (w : World)
    (x : Nat × String × Bytes)
    (hw : (σ.pc i).weight M = 1) (hlen : σ.delivered.length + 1 ≤ M) :
    Sys.measure M K ⟨w, Function.update σ.pc i Pc.idle, σ.delivered ++ [x]⟩
      < Sys.measure M K σ := by
  have hsum := sum_weight_update M K σ.pc i hi Pc.idle
  have hidle : Pc.weight M Pc.idle = M + 4 := rfl
  rw [hidle, hw] at hsum
  have hmul : (M - σ.delivered.length) * (M + 4)
      = (M - (σ.delivered.length + 1)) * (M + 4) + (M + 4) := by
    have : M - σ.delivered.length = (M - (σ.delivered.length + 1)) + 1 := by omega
    rw [this, Nat.succ_mul]
  unfold Sys.measure
  dsimp only
  rw [List.length_append, List.length_singleton]
  omega

/-- Every step whose listing (if it is one) succeeds lowers the measure. -/
theorem Inv.measure_step {d0 : Dir} {K : Nat} {σ σ' : Sys} (h : Inv d0 K σ) (ch : Choice)
    (hle : ch.listErr = none) (hstep : σ.step ch = some σ') :
    σ'.measure (snapshot d0).length K < σ.measure (snapshot d0).length K := by
  have h' : Inv d0 K σ' := h.step ch hstep
  have hlen' := h'.delivered_length_le
  have hsl := h.snapshot_length_le
  unfold Sys.step at hstep
  cases hpc : σ.pc ch.consumer with
  | done =>
    rw [hpc] at hstep
    simp at hstep
  | idle =>
    rw [hpc] at hstep
    have hiK : ch.consumer < K := h.lt_of_not_done (by rw [hpc]; simp)
    simp only [hle, listItemsSorted_ok, World.log] at hstep
    split at hstep
    · simp only [Option.some.injEq] at hstep
      subst hstep
      exact measure_update_lt _ _ _ _ hiK _ _ (by rw [hpc]; simp [Pc.weight])
    · simp only [Option.some.injEq] at hstep
      subst hstep
      exact measure_update_lt _ _ _ _ hiK _ _ (by rw [hpc]; simp only [Pc.weight]; omega)
  | trying l =>
    rw [hpc] at hstep
    have hiK : ch.consumer < K := h.lt_of_not_done (by rw [hpc]; simp)
    cases l with
    | nil =>
      simp only [Option.some.injEq] at hstep
      subst hstep
      exact measure_update_lt _ _ _ _ hiK _ _ (by rw [hpc]; simp [Pc.weight])
    | cons item rest =>
      cases hb : σ.world.dir.lookup item with
      | none =>
        simp only [os.Rename, hb, World.log, Option.some.injEq] at hstep
        subst hstep
        exact measure_update_lt _ _ _ _ hiK _ _ (by rw [hpc]; simp [Pc.weight])
      | some b =>
        simp only [os.Rename, hb, Option.some.injEq] at hstep
        subst hstep
        exact measure_update_lt _ _ _ _ hiK _ _ (by rw [hpc]; simp [Pc.weight])
  | claimed item tmp =>
    rw [hpc] at hstep
    have hiK : ch.consumer < K := h.lt_of_not_done (by rw [hpc]; simp)
    have hold : (σ.pc ch.consumer).holding = some (item, tmp) := by rw [hpc]; rfl
    obtain ⟨_, hsnap0, hlk, _, _⟩ := h.holding _ item tmp hold
    have hmem0 : item ∈ d0 := (mem_snapshot.mp hsnap0).1
    obtain ⟨b, hb⟩ := Option.isSome_iff_exists.mp (AList.lookup_isSome.mpr hmem0)
    rw [hb] at hlk
    simp only [os.ReadFile, hlk, World.log, Option.some.injEq] at hstep
    subst hstep
    exact measure_update_lt _ _ _ _ hiK _ _ (by rw [hpc]; simp [Pc.weight])
  | read item tmp b =>
    rw [hpc] at hstep
    have hiK : ch.consumer < K := h.lt_of_not_done (by rw [hpc]; simp)
    have hold : (σ.pc ch.consumer).holding = some (item, tmp) := by rw [hpc]; rfl
    obtain ⟨_, hsnap0, hlk, _, _⟩ := h.holding _ item tmp hold
    have hd0 := h.readOk _ item tmp b hpc
    rw [hd0] at hlk
    simp only [os.Remove, hlk, Option.some.injEq] at hstep
    subst hstep
    simp only [List.length_append, List.length_singleton] at hlen'
    exact measure_deliver_lt _ _ _ _ hiK _ _ (by rw [hpc]; rfl) hlen'

/-- A schedule without listing failures is no longer than the measure of its start. -/
theorem Inv.run_length {d0 : Dir} {K : Nat} (sched : List Choice) {σ σ' : Sys}
    (h : Inv d0 K σ) (hrun : Sys.run sched σ = some σ')
    (hle : ∀ ch ∈ sched, ch.listErr = none) :
    sched.length + σ'.measure (snapshot d0).length K ≤ σ.measure (snapshot d0).length K := by
  induction sched generalizing σ with
  | nil =>
    simp only [Sys.run, Option.some.injEq] at hrun
    subst hrun
    simp
  | cons ch rest ih =>
    simp only [Sys.run] at hrun
    cases hs : σ.step ch with
    | none =>
      rw [hs] at hrun
      simp at hrun
    | some σ1 =>
      rw [hs] at hrun
      have h1 := ih (h.step ch hs) hrun (fun c hc => hle c (List.mem_cons_of_mem _ hc))
      have h2 := h.measure_step ch (hle ch (List.mem_cons_self _ _)) hs
      simp only [List.length_cons]
      omega

theorem measure_init (d : Dir) (K : Nat) :
    (Sys.init d K).measure (snapshot d).length K
      = ((snapshot d).length + K) * ((snapshot d).length + 4) := by
  have hsum : Finset.sum (Finset.range K)
      (fun j => ((Sys.init d K).pc j).weight (snapshot d).length)
      = Finset.sum (Finset.range K) (fun _ => (snapshot d).length + 4) := by
    apply Finset.sum_congr rfl
    intro j hj
    simp [Sys.init, Finset.mem_range.mp hj, Pc.weight]
  simp only [Sys.measure, hsum, Finset.sum_const, Finset.card_range, smul_eq_mul]
  simp only [Sys.init, List.length_nil, Nat.sub_zero]
  ring

/-! ## Concurrent consumers: one consumer alone runs `Pop` -/

/-- The steps of a consumer that is not interleaved with any other are a call of `Pop`:
on a directory without items one step (the listing) ends the consumer as `Pop` returns
`(nil, nil)`; otherwise four steps (list, rename, read, delete) leave the world `Pop`
leaves and record the payload `Pop` returns. -/
theorem consumer_alone_runs_Pop (d : Dir) (s : FloatText) :
    (snapshot d = [] →
      ∃ σ, Sys.run [⟨0, s, none⟩] (Sys.init d 1) = some σ ∧ σ.pc 0 = Pc.done ∧
        σ.delivered = [] ∧
        (Pop ⟨none, fun _ => none, fun _ => none, fun _ => none, fun _ => s⟩ ⟨d, []⟩)
          = ((none, none), σ.world)) ∧
    (∀ n post, snapshot d = n :: post →
      ∃ σ b, Sys.run [⟨0, s, none⟩, ⟨0, s, none⟩, ⟨0, s, none⟩, ⟨0, s, none⟩] (Sys.init d 1)
          = some σ ∧ σ.pc 0 = Pc.idle ∧ σ.delivered = [(0, n, b)] ∧
        (Pop ⟨none, fun _ => none, fun _ => none, fun _ => none, fun _ => s⟩ ⟨d, []⟩)
          = ((some b, none), σ.world)) := by
  constructor
  · intro hs
    refine ⟨⟨⟨d, [Op.readDir true]⟩, Function.update (Sys.init d 1).pc 0 Pc.done, []⟩,
      ?_, ?_, ?_, ?_⟩
    · simp [Sys.run, Sys.step, Sys.init, listItemsSorted_ok, hs, World.log]
    · simp
    · rfl
    · rw [Pop_of_listed _ _ rfl]
      simp [hs, World.log]
  · intro n post hs
    have hnd : n ∈ d := (mem_snapshot.mp (hs ▸ List.mem_cons_self n post)).1
    obtain ⟨b, hb⟩ := Option.isSome_iff_exists.mp (AList.lookup_isSome.mpr hnd)
    have hpop := Pop_success ⟨none, fun _ => none, fun _ => none, fun _ => none, fun _ => s⟩
      d [] [] post n b rfl hs hb (by simp) rfl rfl rfl
    refine ⟨⟨⟨((d.erase n).insert (tmpPath n s) b).erase (tmpPath n s),
        [Op.readDir true, Op.rename n (tmpPath n s) true, Op.readFile (tmpPath n s) true,
          Op.remove (tmpPath n s) true]⟩,
      Function.update (Function.update (Function.update (Function.update (Sys.init d 1).pc 0
        (Pc.trying (n :: post))) 0 (Pc.claimed n (tmpPath n s))) 0
        (Pc.read n (tmpPath n s) b)) 0 Pc.idle,
      [(0, n, b)]⟩, b, ?_, ?_, ?_, ?_⟩
    · simp [Sys.run, Sys.step, Sys.init, listItemsSorted_ok, hs, World.log, os.Rename, hb,
        os.ReadFile, os.Remove]
    · simp
    · rfl
    · rw [hpop]
      simp [failedRenames]

/-! ## Concurrent consumers: exactly-once delivery -/

/-- A consumer that has not returned can always take its next step. -/
theorem step_isSome (σ : Sys) (ch : Choice) (h : σ.pc ch.consumer ≠ Pc.done) :
    (σ.step ch).isSome = true := by
  unfold Sys.step
  cases hpc : σ.pc ch.consumer with
  | done => exact absurd hpc h
  | idle =>
    cases hl : ch.listErr with
    | some e => simp [listItemsSorted_error]
    | none =>
      simp only [listItemsSorted_ok]
      split <;> rfl
  | trying l =>
    cases l with
    | nil => rfl
    | cons item rest =>
      cases hb : σ.world.dir.lookup item <;> simp [os.Rename, hb]
  | claimed item tmp =>
    cases hb : σ.world.dir.lookup tmp <;> simp [os.ReadFile, hb]
  | read item tmp b =>
    cases hb : σ.world.dir.lookup tmp <;> simp [os.Remove, hb]

/-- C5: let `K ≥ 1` consumers drain the directory `d` (holding `M = len(snapshot d)` items),
each calling `Pop` in a loop until it returns `(nil, nil)`, their atomic filesystem steps
interleaved by any schedule (a rename succeeds exactly when its source still exists, reads
and deletes are not made to fail).  In every state the schedule reaches in which all
consumers have returned: the number of pops that returned a payload is `M`; the delivered
(item, payload) pairs are a permutation of the items of `d` with their contents, so every
item was returned exactly once (one delivery record, hence one consumer) and none twice; and
the directory holds no `.item` entry.  Such a state is always reached: a consumer that has
not returned can take a step, and a schedule in which no listing fails has at most
`(M + K) * (M + 4)` steps. -/
theorem C5_exactly_once_delivery (d : Dir) (K : Nat) (sched : List Choice) (σ : Sys)
    (hK : 0 < K)
    (hrun : Sys.run sched (Sys.init d K) = some σ) :
    ((∀ i, i < K → σ.pc i = Pc.done) →
      σ.delivered.length = (snapshot d).length ∧
      (Len none ⟨d, []⟩).1 = ((σ.delivered.length : Int), none) ∧
      (σ.delivered.map (fun x => (x.2.1, x.2.2))).Perm
        ((snapshot d).map (fun n => (n, (d.lookup n).getD []))) ∧
      σ.deliveredNames.Nodup ∧
      (∀ n ∈ snapshot d, σ.deliveredNames.count n = 1) ∧
      (∀ x ∈ σ.delivered, x.1 < K ∧ d.lookup x.2.1 = some x.2.2) ∧
      snapshot σ.world.dir = [] ∧
      (Len none σ.world).1 = (0, none)) ∧
    (∀ ch, σ.pc ch.consumer ≠ Pc.done → (σ.step ch).isSome = true) ∧
    ((∀ ch ∈ sched, ch.listErr = none) →
      sched.length ≤ ((snapshot d).length + K) * ((snapshot d).length + 4)) := by
  have h : Inv d K σ := (Inv.init d K).run sched hrun
  refine ⟨?_, step_isSome σ, ?_⟩
  · intro hdone
    have hempty : snapshot σ.world.dir = [] := h.finished 0 hK (hdone 0 hK)
    have hall : ∀ i, σ.pc i = Pc.done := by
      intro i
      by_cases hi : i < K
      · exact hdone i hi
      · exact h.beyond i (Nat.le_of_not_lt hi)
    have hperm : σ.deliveredNames.Perm (snapshot d) := by
      rw [List.perm_ext_iff_of_nodup h.delivered_nodup (snapshot_nodup d)]
      intro n
      constructor
      · intro hn
        obtain ⟨x, hx, hxn⟩ := mem_deliveredNames hn
        exact hxn ▸ (h.delivered_ok x hx).2.1
      · intro hn
        rcases h.no_loss n hn with h1 | ⟨i, tmp, h1⟩ | h1
        · rw [hempty] at h1
          exact absurd h1 (by simp)
        · rw [hall i] at h1
          exact absurd h1 (by simp [Pc.holding])
        · exact h1
    have hpairs : σ.delivered.map (fun x => (x.2.1, x.2.2))
        = σ.deliveredNames.map (fun n => (n, (d.lookup n).getD [])) := by
      unfold Sys.deliveredNames
      rw [List.map_map]
      apply List.map_congr_left
      intro x hx
      simp [(h.delivered_ok x hx).1]
    have hlen : σ.delivered.length = (snapshot d).length := by
      have := hperm.length_eq
      simpa [Sys.deliveredNames] using this
    refine ⟨hlen, ?_, ?_, h.delivered_nodup, ?_, ?_, hempty, ?_⟩
    · rw [Len_ok, hlen]
    · rw [hpairs]
      exact hperm.map _
    · intro n hn
      rw [hperm.count_eq]
      exact List.count_eq_one_of_mem (snapshot_nodup d) hn
    · intro x hx
      exact ⟨h.delivered_by x hx, (h.delivered_ok x hx).1⟩
    · rw [Len_ok, hempty]
      rfl
  · intro hle
    have := (Inv.init d K).run_length sched hrun hle
    rw [measure_init] at this
    omega

theorem C5_exactly_once_delivery_witness :
    Sys.run exampleSchedule (Sys.init exampleDir 2) = some exampleFinal ∧
    exampleFinal.delivered = [(1, "1.item", [1]), (0, "2.item", [2])] ∧
    exampleFinal.delivered.length = (snapshot exampleDir).length ∧
    snapshot exampleFinal.world.dir = [] :=
  have h := (C5_exactly_once_delivery exampleDir 2 exampleSchedule exampleFinal
    (by decide) rfl).1 (by decide)
  ⟨rfl, by decide, h.1, h.2.2.2.2.2.2.1⟩

/-! ## Decimal texts of clock readings -/


theorem toDigitsCore_append (b : Nat) : ∀ (f n : Nat) (ds : List Char),
    Nat.toDigitsCore b f n ds = Nat.toDigitsCore b f n [] ++ ds
  | 0, _, _ => by simp [Nat.toDigitsCore]
  | f + 1, n, ds => by
    simp only [Nat.toDigitsCore]
    split
    · simp
    · rw [toDigitsCore_append b f (n / b) (Nat.digitChar (n % b) :: ds),
        toDigitsCore_append b f (n / b) [Nat.digitChar (n % b)]]
      simp

theorem toDigitsCore_fuel : ∀ (f n : Nat), n < f →
    Nat.toDigitsCore 10 f n [] = Nat.toDigitsCore 10 (f + 1) n []
  | 0, _, h => absurd h (Nat.not_lt_zero _)
  | f + 1, n, h => by
    rw [Nat.toDigitsCore, Nat.toDigitsCore]
    by_cases h0 : n / 10 = 0
    · simp [h0]
    · have hlt : n / 10 < f := by omega
      simp only [h0, if_false]
      rw [toDigitsCore_append 10 f, toDigitsCore_append 10 (f + 1),
        toDigitsCore_fuel f (n / 10) hlt]

theorem toDigitsCore_eq_toDigits (f n : Nat) (h : n < f) :
    Nat.toDigitsCore 10 f n [] = Nat.toDigits 10 n := by
  induction f with
  | zero => exact absurd h (Nat.not_lt_zero _)
  | succ f ih =>
    by_cases hf : n < f
    · rw [← toDigitsCore_fuel f n hf]
      exact ih hf
    · have : f = n := by omega
      subst this
      rfl

theorem toDigits_small (n : Nat) (h : n < 10) : Nat.toDigits 10 n = [Nat.digitChar n] := by
  have h0 : n / 10 = 0 := by omega
  have h1 : n % 10 = n := by omega
  simp [Nat.toDigits, Nat.toDigitsCore, h0, h1]

theorem toDigits_big (n : Nat) (h : 10 ≤ n) :
    Nat.toDigits 10 n = Nat.toDigits 10 (n / 10) ++ [Nat.digitChar (n % 10)] := by
  have h0 : n / 10 ≠ 0 := by omega
  rw [Nat.toDigits, Nat.toDigitsCore]
  simp only [h0, if_false]
  rw [toDigitsCore_append, toDigitsCore_eq_toDigits n (n / 10) (by omega)]


theorem digitChar_lt {a b : Nat} (hab : a < b) (hb : b < 10) :
    Nat.digitChar a < Nat.digitChar b := by
  interval_cases b <;> interval_cases a <;> decide

theorem digitChar_ne_minus {a : Nat} (ha : a < 10) : Nat.digitChar a ≠ '-' := by
  interval_cases a <;> decide

theorem lex_append_of_length_eq {l₁ l₂ : List Char} (x y : List Char)
    (h : List.Lex (· < ·) l₁ l₂) (hlen : l₁.length = l₂.length) :
    List.Lex (· < ·) (l₁ ++ x) (l₂ ++ y) := by
  induction h with
  | nil => simp at hlen
  | cons _ ih =>
    simp only [List.length_cons, Nat.add_right_cancel_iff] at hlen
    exact List.Lex.cons (ih hlen)
  | rel hr => exact List.Lex.rel hr

theorem toDigits_length_pos (n : Nat) : 0 < (Nat.toDigits 10 n).length := by
  by_cases h : n < 10
  · rw [toDigits_small n h]
    simp
  · rw [toDigits_big n (by omega)]
    simp

/-- Among numbers printed with the same number of digits, the decimal texts are ordered as
the numbers are. -/
theorem toDigits_lex : ∀ (m n : Nat), n < m →
    (Nat.toDigits 10 n).length = (Nat.toDigits 10 m).length →
    List.Lex (· < ·) (Nat.toDigits 10 n) (Nat.toDigits 10 m) := by
  intro m
  induction m using Nat.strong_induction_on with
  | _ m ih =>
    intro n hnm hlen
    by_cases hm : m < 10
    · rw [toDigits_small n (by omega), toDigits_small m hm]
      exact List.Lex.rel (digitChar_lt hnm hm)
    · have hm' : 10 ≤ m := by omega
      by_cases hn : n < 10
      · exfalso
        rw [toDigits_small n hn, toDigits_big m hm'] at hlen
        have := toDigits_length_pos (m / 10)
        simp only [List.length_singleton, List.length_append] at hlen
        omega
      · have hn' : 10 ≤ n := by omega
        rw [toDigits_big n hn', toDigits_big m hm'] at hlen ⊢
        simp only [List.length_append, List.length_singleton, Nat.add_right_cancel_iff] at hlen
        by_cases hq : n / 10 < m / 10
        · exact lex_append_of_length_eq _ _ (ih (m / 10) (by omega) (n / 10) hq hlen) hlen
        · have hq' : n / 10 = m / 10 := by omega
          rw [hq']
          apply List.Lex.append_left
          exact List.Lex.rel (digitChar_lt (by omega) (by omega))

theorem toDigits_injective {n m : Nat} (h : Nat.toDigits 10 n = Nat.toDigits 10 m) : n = m := by
  rcases Nat.lt_trichotomy n m with hlt | heq | hgt
  · have := toDigits_lex m n hlt (by rw [h])
    rw [h] at this
    exact (asymm this this).elim
  · exact heq
  · have := toDigits_lex n m hgt (by rw [h])
    rw [h] at this
    exact (asymm this this).elim

theorem toDigits_no_minus : ∀ (n : Nat), '-' ∉ Nat.toDigits 10 n := by
  intro n
  induction n using Nat.strong_induction_on with
  | _ n ih =>
    by_cases hn : n < 10
    · rw [toDigits_small n hn]
      simp only [List.mem_singleton]
      exact fun h => digitChar_ne_minus hn h.symm
    · rw [toDigits_big n (by omega)]
      simp only [List.mem_append, List.mem_singleton, not_or]
      exact ⟨ih (n / 10) (by omega), fun h => digitChar_ne_minus (Nat.mod_lt _ (by omega)) h.symm⟩

theorem toDigits_length_of_range : ∀ (k n : Nat), 10 ^ k ≤ n → n < 10 ^ (k + 1) →
    (Nat.toDigits 10 n).length = k + 1
  | 0, n, _, h2 => by
    rw [toDigits_small n (by simpa using h2)]
    rfl
  | k + 1, n, h1, h2 => by
    have h10 : 10 ≤ n := le_trans (by simp [Nat.pow_succ]; exact Nat.one_le_pow _ _ (by omega)) h1
    rw [toDigits_big n h10]
    have := toDigits_length_of_range k (n / 10)
      (by rw [Nat.le_div_iff_mul_le (by omega)]; rw [Nat.pow_succ] at h1; exact h1)
      (by rw [Nat.div_lt_iff_lt_mul (by omega)]; rw [Nat.pow_succ] at h2; exact h2)
    simp [this]


/-! ## What holds of the names `Push` builds -/

theorem formatInt_injective {a b : Int} (h : formatInt a = formatInt b) : a = b := by
  have hd := congrArg String.data h
  cases a with
  | ofNat n =>
    cases b with
    | ofNat m =>
      simp only [formatInt, Nat.repr, List.asString] at hd
      rw [toDigits_injective hd]
    | negSucc m =>
      exfalso
      simp only [formatInt, Nat.repr, List.asString, String.data_append] at hd
      have : '-' ∈ Nat.toDigits 10 n := by
        rw [hd]
        exact List.mem_append_left _ (by decide)
      exact toDigits_no_minus n this
  | negSucc n =>
    cases b with
    | ofNat m =>
      exfalso
      simp only [formatInt, Nat.repr, List.asString, String.data_append] at hd
      have : '-' ∈ Nat.toDigits 10 m := by
        rw [← hd]
        exact List.mem_append_left _ (by decide)
      exact toDigits_no_minus m this
    | negSucc m =>
      simp only [formatInt, Nat.repr, List.asString, String.data_append] at hd
      have h1 := toDigits_injective (List.append_cancel_left hd)
      have : n = m := by omega
      rw [this]

theorem itemName_injective {a b : Int} (h : itemName a = itemName b) : a = b := by
  apply formatInt_injective
  have hd := congrArg String.data h
  simp only [itemName, String.data_append] at hd
  exact String.ext (List.append_cancel_right hd)

/-- Clock readings printed with the same number of digits give names in the order of the
readings. -/
theorem itemName_lt {n m : Nat} (h : n < m)
    (hlen : (Nat.toDigits 10 n).length = (Nat.toDigits 10 m).length) :
    itemName (n : Int) < itemName (m : Int) := by
  rw [String.lt_iff_toList_lt]
  exact lex_append_of_length_eq _ _ (toDigits_lex m n h hlen) hlen

/-- All clock readings from 10^18 to 10^19 - 1 nanoseconds (September 2001 to the end of
the `int64` range) give names in the order of the readings. -/
theorem itemName_lt_of_19_digits {n m : Nat} (h : n < m) (hn : 10 ^ 18 ≤ n)
    (hm : m < 10 ^ 19) : itemName (n : Int) < itemName (m : Int) :=
  itemName_lt h (by
    rw [toDigits_length_of_range 18 n hn (by omega),
      toDigits_length_of_range 18 m (by omega) hm])

/-! ## Sequences of pushes and pops -/

theorem itemName_isItem (t : Int) : strings.HasSuffix (itemName t) ".item" = true :=
  hasSuffix_item (formatInt t)

theorem pushAll_cons (p : Int × Bytes) (rest : List (Int × Bytes)) (w : World) :
    pushAll (p :: rest) w
      = pushAll rest ⟨w.dir.insert (itemName p.1) p.2,
          w.trace ++ [Op.writeFile (itemName p.1) true]⟩ := rfl

/-- Pushes leave every entry they do not name as it is. -/
theorem pushAll_lookup_other (ps : List (Int × Bytes)) (w : World) (m : String)
    (hm : m ∉ ps.map (fun p => itemName p.1)) :
    (pushAll ps w).dir.lookup m = w.dir.lookup m := by
  induction ps generalizing w with
  | nil => rfl
  | cons p rest ih =>
    simp only [List.map_cons, List.mem_cons, not_or] at hm
    rw [pushAll_cons, ih _ hm.2]
    exact AList.lookup_insert_ne hm.1

/-- After pushes at pairwise distinct clock readings every payload is stored under the
name of its reading. -/
theorem pushAll_lookup (ps : List (Int × Bytes)) (w : World)
    (hdistinct : (ps.map Prod.fst).Nodup) :
    ∀ p ∈ ps, (pushAll ps w).dir.lookup (itemName p.1) = some p.2 := by
  induction ps generalizing w with
  | nil => simp
  | cons q rest ih =>
    simp only [List.map_cons, List.nodup_cons] at hdistinct
    intro p hp
    rw [pushAll_cons]
    rcases List.mem_cons.mp hp with rfl | hp
    · rw [pushAll_lookup_other]
      · exact AList.lookup_insert _
      · intro hmem
        obtain ⟨r, hr, hre⟩ := List.mem_map.mp hmem
        exact hdistinct.1 (List.mem_map.mpr ⟨r, hr, itemName_injective hre⟩)
    · exact ih _ hdistinct.2 p hp

theorem mem_snapshot_pushAll (ps : List (Int × Bytes)) (w : World) (m : String) :
    m ∈ snapshot (pushAll ps w).dir
      ↔ m ∈ snapshot w.dir ∨ m ∈ ps.map (fun p => itemName p.1) := by
  induction ps generalizing w with
  | nil => simp [pushAll]
  | cons p rest ih =>
    rw [pushAll_cons, ih, mem_snapshot_insert _ (itemName_isItem p.1)]
    simp only [List.map_cons, List.mem_cons]
    tauto

/-- What the code does for `N` pushes when the clock readings are pairwise distinct: on a
directory without items `Len` returns `N`, and every payload is stored under its name. -/
theorem Len_after_pushes_at_distinct_readings (ps : List (Int × Bytes)) (d : Dir)
    (hempty : ∀ m, m ∈ d → strings.HasSuffix m ".item" = false)
    (hdistinct : (ps.map Prod.fst).Nodup) :
    (Len none (pushAll ps ⟨d, []⟩)).1 = ((ps.length : Int), none) ∧
    ∀ p ∈ ps, (pushAll ps ⟨d, []⟩).dir.lookup (itemName p.1) = some p.2 := by
  refine ⟨?_, pushAll_lookup ps _ hdistinct⟩
  rw [Len_ok]
  have hnd : (ps.map (fun p => itemName p.1)).Nodup := by
    have : ps.map (fun p => itemName p.1) = (ps.map Prod.fst).map itemName := by
      rw [List.map_map]
      rfl
    rw [this]
    exact hdistinct.map (fun a b h => itemName_injective h)
  have hp : (snapshot (pushAll ps ⟨d, []⟩).dir).Perm (ps.map (fun p => itemName p.1)) := by
    rw [List.perm_ext_iff_of_nodup (snapshot_nodup _) hnd]
    intro m
    rw [mem_snapshot_pushAll, snapshot_eq_nil hempty]
    simp
  have := hp.length_eq
  simp only [List.length_map] at this
  rw [this]

theorem Len_after_pushes_at_distinct_readings_witness :
    (Len none (pushAll [(1700000000000000000, [1]), (1700000000000000001, [2])] ⟨∅, []⟩)).1
      = (2, none) :=
  (Len_after_pushes_at_distinct_readings
    [(1700000000000000000, [1]), (1700000000000000001, [2])] ∅ (by simp) (by decide)).1

/-- Successive pops, none failing, return the contents of the snapshot entries in the
order of the snapshot. -/
theorem popAll_in_snapshot_order (o : Outcomes) (qs : List (String × Bytes)) (w : World)
    (hlist : o.readDir = none)
    (hrename : ∀ m, o.rename m = none)
    (hread : ∀ m, o.readFile m = none)
    (hremove : ∀ m, o.remove m = none)
    (hs : snapshot w.dir = qs.map Prod.fst)
    (hl : ∀ q ∈ qs, w.dir.lookup q.1 = some q.2) :
    (popAll o qs.length w).1 = qs.map (fun q => (some q.2, none)) := by
  induction qs generalizing w with
  | nil => rfl
  | cons q rest ih =>
    have hs' : snapshot w.dir = [] ++ q.1 :: rest.map Prod.fst := by
      rw [hs]
      rfl
    have hpop := Pop_success o w.dir w.trace [] (rest.map Prod.fst) q.1 q.2 hlist hs'
      (hl q (List.mem_cons_self _ _)) (by simp) (hrename _) (hread _) (hremove _)
    have hnd : (q.1 :: rest.map Prod.fst).Nodup := by
      have := snapshot_nodup w.dir
      rwa [hs] at this
    simp only [List.length_cons, popAll, List.map_cons]
    rw [show Pop o w = Pop o ⟨w.dir, w.trace⟩ from rfl, hpop]
    simp only [List.cons.injEq, true_and]
    apply ih
    · exact snapshot_after_pop w.dir q.1 (o.float q.1) q.2 (rest.map Prod.fst) hs
    · intro r hr
      have hr1 : r.1 ∈ rest.map Prod.fst := List.mem_map.mpr ⟨r, hr, rfl⟩
      have hne : r.1 ≠ q.1 := by
        intro e
        exact (List.nodup_cons.mp hnd).1 (e ▸ hr1)
      have hitem : strings.HasSuffix r.1 ".item" = true := by
        have : r.1 ∈ snapshot w.dir := by
          rw [hs]
          exact List.mem_cons_of_mem _ hr1
        exact (mem_snapshot.mp this).2
      have hnt : r.1 ≠ tmpPath q.1 (o.float q.1) := by
        intro e
        rw [e, tmpPath_not_item] at hitem
        exact absurd hitem (by decide)
      simp only
      rw [AList.lookup_erase_ne hnt, AList.lookup_insert_ne hnt, AList.lookup_erase_ne hne]
      exact hl r (List.mem_cons_of_mem _ hr)

/-- What the code does for pushes at strictly increasing clock readings that are printed
with the same number of digits: sequential pops return the payloads in the order pushed. -/
theorem Pop_order_at_same_width_readings (ps : List (Nat × Bytes)) (d : Dir) (o : Outcomes)
    (hempty : ∀ m, m ∈ d → strings.HasSuffix m ".item" = false)
    (hlist : o.readDir = none)
    (hrename : ∀ m, o.rename m = none)
    (hread : ∀ m, o.readFile m = none)
    (hremove : ∀ m, o.remove m = none)
    (hinc : ps.Pairwise (fun p q => p.1 < q.1))
    (hwidth : ∀ p ∈ ps, ∀ q ∈ ps,
      (Nat.toDigits 10 p.1).length = (Nat.toDigits 10 q.1).length) :
    (popAll o ps.length (pushAll (ps.map (fun p => ((p.1 : Int), p.2))) ⟨d, []⟩)).1
      = ps.map (fun p => (some p.2, none)) := by
  have hdistinct : ((ps.map (fun p => ((p.1 : Int), p.2))).map Prod.fst).Nodup := by
    rw [List.map_map]
    unfold List.Nodup
    rw [List.pairwise_map]
    refine hinc.imp ?_
    intro a b hab
    simp only [Function.comp_apply, ne_eq, Nat.cast_inj]
    omega
  have hnames : (ps.map (fun p => ((p.1 : Int), p.2))).map (fun p => itemName p.1)
      = ps.map (fun p => itemName (p.1 : Int)) := by
    rw [List.map_map]
    rfl
  have hsorted : (ps.map (fun p => itemName (p.1 : Int))).Sorted (· < ·) := by
    unfold List.Sorted
    rw [List.pairwise_map]
    refine hinc.imp_of_mem ?_
    intro a b ha hb hab
    exact itemName_lt hab (hwidth a ha b hb)
  have hs : snapshot (pushAll (ps.map (fun p => ((p.1 : Int), p.2))) ⟨d, []⟩).dir
      = (ps.map (fun p => (itemName (p.1 : Int), p.2))).map Prod.fst := by
    rw [List.map_map]
    apply snapshot_eq_of_mem hsorted
    intro m
    rw [mem_snapshot_pushAll, snapshot_eq_nil hempty, hnames]
    simp
  have hl : ∀ q ∈ ps.map (fun p => (itemName (p.1 : Int), p.2)),
      (pushAll (ps.map (fun p => ((p.1 : Int), p.2))) ⟨d, []⟩).dir.lookup q.1 = some q.2 := by
    intro q hq
    obtain ⟨p, hp, rfl⟩ := List.mem_map.mp hq
    exact pushAll_lookup _ _ hdistinct ((p.1 : Int), p.2) (List.mem_map.mpr ⟨p, hp, rfl⟩)
  have := popAll_in_snapshot_order o (ps.map (fun p => (itemName (p.1 : Int), p.2))) _
    hlist hrename hread hremove hs hl
  rw [List.length_map, List.map_map] at this
  exact this

theorem Pop_order_at_same_width_readings_witness :
    (popAll quiet 3 (pushAll [(1700000000000000000, [97]), (1700000000000000005, [98]),
      (1700000000000000010, [99])] ⟨∅, []⟩)).1
      = [(some [97], none), (some [98], none), (some [99], none)] :=
  Pop_order_at_same_width_readings
    [(1700000000000000000, [97]), (1700000000000000005, [98]), (1700000000000000010, [99])]
    ∅ quiet (by simp) rfl (fun _ => rfl) (fun _ => rfl) (fun _ => rfl) (by decide)
    (by
      have h19 : ∀ r ∈ [((1700000000000000000 : Nat), ([97] : Bytes)),
          (1700000000000000005, [98]), (1700000000000000010, [99])],
          (Nat.toDigits 10 r.1).length = 19 := by
        intro r hr
        simp only [List.mem_cons, List.mem_singleton, List.not_mem_nil, or_false] at hr
        rcases hr with rfl | rfl | rfl <;>
          exact toDigits_length_of_range 18 _ (by norm_num) (by norm_num)
      intro p hp q hq
      rw [h19 p hp, h19 q hq])

end FileQueue
